import Mathlib

/-!
A verification development for the opds-aggregator gateway: a shallow
embedding of its crawling / caching / URL-rewriting core, with theorems
checking the specification's claims against the code.

Modelling conventions.
* Go strings are modelled as `List Char` (`Str`).  Go operates on bytes;
  the model is faithful for data whose characters are ASCII (all on-wire
  URLs and query strings), and theorems about percent-coding carry an
  explicit ASCII / byte-range hypothesis.
* Network effects are modelled by oracles `fetch : Str → Option Feed`
  (`none` = transport/parse failure, matching the Go error paths).
* Go maps used as children tables are modelled as association lists; the
  map iteration order never matters for the claims proved here.
-/

/-- Strings of the Go program, modelled as lists of characters. -/
abbrev Str := List Char

/-- Conversion from Lean string literals into the model's string type. -/
def str (s : String) : Str := s.toList

/-- Model of Go `strings.HasPrefix s p`. -/
def startsWith : Str → Str → Bool
  | _, [] => true
  | [], _ :: _ => false
  | c :: s, p :: ps => c = p && startsWith s ps

/-- Model of Go `strings.HasSuffix s p`. -/
def endsWith (s p : Str) : Bool := startsWith s.reverse p.reverse

/-- Model of Go `strings.TrimPrefix s p` (removes one occurrence). -/
def trimLeading (s p : Str) : Str := if startsWith s p then s.drop p.length else s

/-- Model of Go `strings.TrimSuffix s p` (removes one occurrence). -/
def trimTrailing (s p : Str) : Str :=
  if endsWith s p then s.take (s.length - p.length) else s

/-- Whether a character occurs in a string. -/
def containsChar (s : Str) (c : Char) : Bool := s.any (· = c)

/-- Model of Go `strings.Contains s sub` (substring search). -/
def containsSub : Str → Str → Bool
  | [], sub => sub.isEmpty
  | c :: t, sub => startsWith (c :: t) sub || containsSub t sub

/-- Model of Go `strings.Cut s (string c)`: splits at the first occurrence of
    `c`, returning (before, after, found). -/
def cutChar (c : Char) : Str → Str × Str × Bool
  | [] => ([], [], false)
  | x :: s =>
    if x = c then ([], s, true)
    else
      let r := cutChar c s
      (x :: r.1, r.2.1, r.2.2)

/-- Splitting on a separator character, keeping empty components (standard
    split; Go's `ParseQuery` Cut-loop never produces the one trailing empty
    component this can produce, but empty components are skipped by the
    consumer either way). -/
def goSplit (c : Char) : Str → List Str
  | [] => []
  | x :: s =>
    if x = c then [] :: goSplit c s
    else
      match goSplit c s with
      | [] => [[x]]
      | a :: rest => (x :: a) :: rest

/-- Standard split on a character, with `splitChar c [] = [[]]` (used by the
    dot-segment algorithm, mirroring Go `strings.Split`). -/
def splitChar (c : Char) : Str → List Str
  | [] => [[]]
  | x :: s =>
    if x = c then [] :: splitChar c s
    else
      match splitChar c s with
      | [] => [[x]]
      | a :: rest => (x :: a) :: rest

/-- Model of Go `strings.Join parts (string c)`. -/
def joinWith (c : Char) : List Str → Str
  | [] => []
  | [x] => x
  | x :: xs => x ++ c :: joinWith c xs

/-- Strict lexicographic order on strings (Go `<` on strings; byte-wise in
    Go, character-wise here — identical on ASCII data). -/
def lexLT : Str → Str → Bool
  | [], [] => false
  | [], _ :: _ => true
  | _ :: _, [] => false
  | a :: s, b :: t => a.toNat < b.toNat || (a = b && lexLT s t)

/-- Stable insertion of a key/value pair into a key-sorted pair list:
    inserted after all strictly smaller keys and before equal keys seen so
    far, which reproduces Go `url.Values.Encode`'s sorted-keys /
    per-key-insertion-order output on a flat pair list. -/
def insertPair (p : Str × Str) : List (Str × Str) → List (Str × Str)
  | [] => [p]
  | q :: rest => if lexLT q.1 p.1 then q :: insertPair p rest else p :: q :: rest

/-- Stable sort of query pairs by key (see `insertPair`). -/
def sortPairs : List (Str × Str) → List (Str × Str)
  | [] => []
  | p :: rest => insertPair p (sortPairs rest)

/-- Characters Go's query escaper leaves unescaped (alphanumerics and
    `-_.~`). -/
def isUnreservedChar (c : Char) : Bool :=
  c.isAlphanum || c = '-' || c = '_' || c = '.' || c = '~'

/-- Upper-case hexadecimal digit, as Go emits in `%XX` escapes. -/
def hexDigitU (n : Nat) : Char :=
  if n < 10 then Char.ofNat (48 + n) else Char.ofNat (55 + n)

/-- Escaping of one character under Go `url.QueryEscape`: unreserved
    characters kept, space becomes `+`, anything else `%XX`.  (Go escapes
    each UTF-8 byte; the model escapes the code point, faithful for
    single-byte characters.) -/
def escapeChar (c : Char) : Str :=
  if isUnreservedChar c then [c]
  else if c = ' ' then ['+']
  else ['%', hexDigitU (c.toNat / 16), hexDigitU (c.toNat % 16)]

/-- Model of Go `url.QueryEscape`. -/
def queryEscape (s : Str) : Str := s.flatMap escapeChar

/-- Value of a hexadecimal digit character (Go accepts both cases). -/
def unhexDigit (c : Char) : Option Nat :=
  let n := c.toNat
  if 48 ≤ n ∧ n ≤ 57 then some (n - 48)
  else if 65 ≤ n ∧ n ≤ 70 then some (n - 55)
  else if 97 ≤ n ∧ n ≤ 102 then some (n - 87)
  else none

/-- Model of Go `url.QueryUnescape`: `+` becomes space, `%XX` decodes, a
    malformed `%` escape is an error (`none`). -/
def queryUnescape : Str → Option Str
  | [] => some []
  | c :: rest =>
    if c = '%' then
      match rest with
      | h :: l :: rest' =>
        match unhexDigit h, unhexDigit l with
        | some hi, some lo => (Char.ofNat (hi * 16 + lo) :: ·) <$> queryUnescape rest'
        | _, _ => none
      | _ => none
    else if c = '+' then (' ' :: ·) <$> queryUnescape rest
    else (c :: ·) <$> queryUnescape rest

/-- One component of Go `url.ParseQuery`'s loop; `none` models the error
    flag being set (a `;` in a component, or an escape error). -/
def parseQueryComps : List Str → Option (List (Str × Str))
  | [] => some []
  | comp :: rest =>
    if comp.isEmpty then parseQueryComps rest
    else if containsChar comp ';' then none
    else
      match queryUnescape (cutChar '=' comp).1, queryUnescape (cutChar '=' comp).2.1 with
      | some k, some v => (fun ps => (k, v) :: ps) <$> parseQueryComps rest
      | _, _ => none

/-- Model of Go `url.ParseQuery`, as the ordered list of key/value pairs
    (Go's `url.Values` map with per-key value order flattened in insertion
    order).  `none` models `err ≠ nil`; the Go callers modelled here only
    use the result when `err == nil`. -/
def parseQuery (s : Str) : Option (List (Str × Str)) := parseQueryComps (goSplit '&' s)

/-- Model of Go `url.Values.Get`: first value for the key, empty if absent. -/
def valsGet (ps : List (Str × Str)) (k : Str) : Str :=
  match ps.find? (fun p => decide (p.1 = k)) with
  | some p => p.2
  | none => []

/-- Model of Go `url.Values.Del`. -/
def valsDel (ps : List (Str × Str)) (k : Str) : List (Str × Str) :=
  ps.filter (fun p => !decide (p.1 = k))

/-- Model of Go `url.Values.Encode`: keys sorted, each pair re-escaped with
    `QueryEscape`, joined with `&`. -/
def valsEncode (ps : List (Str × Str)) : Str :=
  joinWith '&' ((sortPairs ps).map (fun p => queryEscape p.1 ++ '=' :: queryEscape p.2))

/-- handlers.go `stripPaginationParams`: removes the gateway-internal
    `offset` and `limit` query parameters; an unparsable query is returned
    unchanged. -/
def stripPaginationParams (rawQuery : Str) : Str :=
  if rawQuery = [] then []
  else
    match parseQuery rawQuery with
    | none => rawQuery
    | some vs => valsEncode (valsDel (valsDel vs (str "offset")) (str "limit"))

/-- The components of a parsed URL that the program reads (`Host`, `Path`,
    `RawQuery`, plus the scheme needed to re-render). -/
structure URL where
  scheme : Str
  host : Str
  path : Str
  query : Str
deriving DecidableEq

/-- Splits `rest` (the part after `scheme://`) into host, path and query the
    way Go `net/url.Parse` does: query cut at the first `?`, host up to the
    first `/`. -/
def parseHostPath (scheme rest : Str) : URL :=
  let cq := cutChar '?' rest
  let host := cq.1.takeWhile (· ≠ '/')
  let path := cq.1.dropWhile (· ≠ '/')
  ⟨scheme, host, path, cq.2.1⟩

/-- Model of Go `net/url.Parse`, restricted to the program's domain:
    absolute http(s) URLs (no userinfo, no percent-decoding of the path —
    faithful for escape-free URLs), with the fragment cut off first as in
    Go; anything else is treated as a path?query reference with empty
    scheme and host, as Go does for scheme-less references.  Go's
    `url.Parse` returns an error only for inputs outside this domain
    (control characters, malformed escapes), so the callers' error
    fallbacks are unreachable in the model. -/
def parseURL (s0 : Str) : URL :=
  let s := (cutChar '#' s0).1
  if startsWith s (str "http://") then parseHostPath (str "http") (s.drop 7)
  else if startsWith s (str "https://") then parseHostPath (str "https") (s.drop 8)
  else
    let pq := cutChar '?' s
    ⟨[], [], pq.1, pq.2.1⟩

/-- Rendering of URL components back to a string (used to state theorems
    over well-formed URLs). -/
def renderURL (u : URL) : Str :=
  u.scheme ++ str "://" ++ u.host ++ u.path ++ (if u.query = [] then [] else '?' :: u.query)

/-- rewrite.go `makeRelativePath` (the current version, with the explicit
    prefix / same-page / divergent-path cases). -/
def makeRelativePath (base full : Str) : Str :=
  let baseURL := parseURL base
  let fullURL := parseURL full
  if baseURL.host ≠ fullURL.host then str "ext?url=" ++ queryEscape full
  else
    let basePath := trimTrailing baseURL.path (str "/") ++ str "/"
    if startsWith fullURL.path basePath then
      let rel := trimLeading fullURL.path basePath
      if fullURL.query ≠ [] then rel ++ '?' :: fullURL.query else rel
    else if trimTrailing fullURL.path (str "/") = trimTrailing baseURL.path (str "/") then
      if fullURL.query ≠ [] then '?' :: fullURL.query else []
    else str "ext?url=" ++ queryEscape full

/-- rewrite.go `joinURL`: reconstructs an upstream URL by string
    concatenation, stripping any query already on the base. -/
def joinURL (base subPath rawQuery : Str) : Str :=
  let base := (cutChar '?' base).1
  let u := trimTrailing base (str "/") ++ '/' :: trimLeading subPath (str "/")
  if rawQuery ≠ [] then u ++ '?' :: rawQuery else u

/-- Go `resolvePath`'s dot-segment removal: split on `/`, drop `.` , pop on
    `..`, re-add a trailing empty segment when the last segment was a dot
    segment, and re-join under a leading `/`. -/
def removeDotSegments (full : Str) : Str :=
  if full = [] then []
  else
    let src := splitChar '/' full
    let dst := src.foldl
      (fun d e =>
        if e = str "." then d
        else if e = str ".." then d.dropLast
        else d ++ [e]) ([] : List Str)
    let dst :=
      match src.getLast? with
      | some e => if e = str "." || e = str ".." then dst ++ [[]] else dst
      | none => dst
    '/' :: trimLeading (joinWith '/' dst) (str "/")

/-- rewrite.go / crawler.go `resolveURL`: absolute http(s) refs returned
    as-is; otherwise the base path is forced directory-like (trailing `/`)
    and the reference resolved against it, modelling Go
    `URL.ResolveReference` for host-relative and path-relative references
    (network-path `//host/...` refs keep the base scheme; dot segments are
    removed; an empty-path reference keeps the base path and, per RFC 3986,
    takes the reference's query if one is present). -/
def resolveURL (base ref : Str) : Str :=
  if startsWith ref (str "http://") || startsWith ref (str "https://") then ref
  else
    let baseURL := parseURL base
    let basePath := if endsWith baseURL.path (str "/") then baseURL.path else baseURL.path ++ ['/']
    if startsWith ref (str "//") then baseURL.scheme ++ ':' :: ref
    else
      let refNoFrag := (cutChar '#' ref).1
      let pq := cutChar '?' refNoFrag
      if pq.1 = [] then
        renderURL ⟨baseURL.scheme, baseURL.host, basePath, if pq.2.2 then pq.2.1 else baseURL.query⟩
      else
        let merged := if startsWith pq.1 (str "/") then pq.1 else basePath ++ pq.1
        renderURL ⟨baseURL.scheme, baseURL.host, removeDotSegments merged, pq.2.1⟩

/-- OPDS link relation constants (opds/types.go). -/
def RelSelf : Str := str "self"

/-- Link relation `start`. -/
def RelStart : Str := str "start"

/-- Link relation `subsection`. -/
def RelSubsection : Str := str "subsection"

/-- Link relation `first`. -/
def RelFirst : Str := str "first"

/-- Link relation `previous`. -/
def RelPrevious : Str := str "previous"

/-- Link relation `next`. -/
def RelNext : Str := str "next"

/-- Link relation `last`. -/
def RelLast : Str := str "last"

/-- Link relation `search`. -/
def RelSearch : Str := str "search"

/-- Link relation for OPDS facets. -/
def RelFacet : Str := str "http://opds-spec.org/facet"

/-- Link relation for generic acquisition. -/
def RelAcquisition : Str := str "http://opds-spec.org/acquisition"

/-- Link relation for open-access acquisition. -/
def RelOpenAccess : Str := str "http://opds-spec.org/acquisition/open-access"

/-- Link relation for borrow acquisition. -/
def RelBorrow : Str := str "http://opds-spec.org/acquisition/borrow"

/-- Link relation for buy acquisition. -/
def RelBuy : Str := str "http://opds-spec.org/acquisition/buy"

/-- Link relation for sample acquisition. -/
def RelSample : Str := str "http://opds-spec.org/acquisition/sample"

/-- Link relation for subscribe acquisition. -/
def RelSubscribe : Str := str "http://opds-spec.org/acquisition/subscribe"

/-- Link relation for images. -/
def RelImage : Str := str "http://opds-spec.org/image"

/-- Link relation for thumbnails. -/
def RelThumbnail : Str := str "http://opds-spec.org/image/thumbnail"

/-- Link relation for the "new" sort. -/
def RelSortNew : Str := str "http://opds-spec.org/sort/new"

/-- Link relation for the "popular" sort. -/
def RelSortPopular : Str := str "http://opds-spec.org/sort/popular"

/-- Link relation for featured feeds. -/
def RelFeatured : Str := str "http://opds-spec.org/featured"

/-- Link relation for recommended feeds. -/
def RelRecommended : Str := str "http://opds-spec.org/recommended"

/-- Link relation for the user's shelf. -/
def RelShelf : Str := str "http://opds-spec.org/shelf"

/-- Link relation for subscriptions. -/
def RelSubscriptions : Str := str "http://opds-spec.org/subscriptions"

/-- Link relation `alternate`. -/
def RelAlternate : Str := str "alternate"

/-- Link relation `related`. -/
def RelRelated : Str := str "related"

/-- An Atom/OPDS link: the fields the modelled code reads (rel, href,
    media type). -/
structure Link where
  rel : Str
  href : Str
  type : Str
deriving DecidableEq

/-- An Atom entry: identifier, title and its ordered links (the other
    fields of opds/types.go are copied opaquely by every modelled
    function and are omitted). -/
structure Entry where
  id : Str
  title : Str
  links : List Link
deriving DecidableEq

/-- An Atom feed: the fields the modelled code reads or rewrites. -/
structure Feed where
  id : Str
  title : Str
  updated : Str
  links : List Link
  entries : List Entry
deriving DecidableEq

/-- opds/types.go `isAcquisitionRel` (the identical copy in
    server/rewrite.go is the same function). -/
def isAcquisitionRel (rel : Str) : Bool :=
  rel = RelAcquisition || rel = RelOpenAccess || rel = RelBorrow ||
  rel = RelBuy || rel = RelSample || rel = RelSubscribe

/-- opds/types.go `IsImageRel`. -/
def isImageRel (rel : Str) : Bool := rel = RelImage || rel = RelThumbnail

/-- opds/types.go `IsNavigationRel`. -/
def isNavigationRel (rel : Str) : Bool :=
  rel = RelSubsection || rel = RelStart || rel = RelSelf || rel = RelNext ||
  rel = RelAlternate || rel = RelRelated || rel = RelSortNew || rel = RelSortPopular ||
  rel = RelFeatured || rel = RelRecommended || rel = RelShelf || rel = RelSubscriptions ||
  rel = RelFacet

/-- opds/types.go `Entry.HasAcquisitionLinks`. -/
def hasAcquisitionLinks (e : Entry) : Bool :=
  e.links.any (fun l => isAcquisitionRel l.rel)

/-- opds/types.go `Feed.IsNavigationFeed`: no entries → `false`; otherwise
    true iff no entry has an acquisition link. -/
def isNavigationFeed (f : Feed) : Bool :=
  if f.entries.isEmpty then false
  else f.entries.all (fun e => !hasAcquisitionLinks e)

/-- opds/types.go `Feed.NextLink`: first link with rel `next`. -/
def nextLink (f : Feed) : Option Link :=
  f.links.find? (fun l => decide (l.rel = RelNext))

/-- opds/types.go `Feed.SearchLink`: first link with rel `search`. -/
def searchLink (f : Feed) : Option Link :=
  f.links.find? (fun l => decide (l.rel = RelSearch))

/-- rewrite.go `isOPDSFeedType`. -/
def isOPDSFeedType (mediaType : Str) : Bool :=
  containsSub mediaType (str "opds-catalog") || containsSub mediaType (str "atom+xml")

/-- rewrite.go `isAggregatorPath`: hrefs that are already gateway-local
    route patterns. -/
def isAggregatorPath (href : Str) : Bool :=
  if startsWith href (str "/opds/source/") then true
  else if startsWith href (str "/opds/download/") && containsSub href (str "?url=") then true
  else if startsWith href (str "/opds/search/") &&
      (containsSub href (str "?upstream=") || containsSub href (str "?q=")) then true
  else if href = str "/opds/search" || startsWith href (str "/opds/search?") then true
  else false

/-- rewrite.go `rewriteHref`. -/
def rewriteHref (l : Link) (slug baseUpstreamURL sourceRootURL proxyPrefix : Str) : Str :=
  if isAggregatorPath l.href then l.href
  else
    let href := resolveURL baseUpstreamURL l.href
    if isAcquisitionRel l.rel || isImageRel l.rel then
      proxyPrefix ++ str "/opds/download/" ++ slug ++ str "?url=" ++ queryEscape href
    else if l.rel = RelSearch then
      proxyPrefix ++ str "/opds/search/" ++ slug ++ str "?upstream=" ++ queryEscape href
    else if isOPDSFeedType l.type || isNavigationRel l.rel then
      proxyPrefix ++ str "/opds/source/" ++ slug ++ str "/" ++ makeRelativePath sourceRootURL href
    else if startsWith href (str "http://") || startsWith href (str "https://") then
      proxyPrefix ++ str "/opds/download/" ++ slug ++ str "?url=" ++ queryEscape href
    else href

/-- rewrite.go `rewriteLinks` (value level: a fresh slice with each link's
    href rewritten; Go returns nil for an empty input). -/
def rewriteLinks (links : List Link) (slug baseUpstreamURL sourceRootURL proxyPrefix : Str) :
    List Link :=
  if links.isEmpty then []
  else links.map (fun l => { l with href := rewriteHref l slug baseUpstreamURL sourceRootURL proxyPrefix })

/-- rewrite.go `rewriteFeedLinks` (value level): the returned feed copies
    every field and replaces the document-level and per-entry link lists by
    rewritten ones. -/
def rewriteFeedLinks (feed : Feed) (slug baseUpstreamURL sourceRootURL proxyPrefix : Str) : Feed :=
  { feed with
    links := rewriteLinks feed.links slug baseUpstreamURL sourceRootURL proxyPrefix
    entries := feed.entries.map (fun e =>
      { e with links := rewriteLinks e.links slug baseUpstreamURL sourceRootURL proxyPrefix }) }

/-- crawler.go `FeedTree`: a cached upstream feed and its navigable
    children, keyed by path relative to the source root (the Go map is
    modelled as an association list; the two upstream-pagination bookkeeping
    fields, never read by the modelled code, are omitted). -/
inductive FeedTree where
  | mk (feed : Feed) (url : Str) (children : List (Str × FeedTree)) (searchURL : Str)

/-- The root document of a tree. -/
def FeedTree.feed : FeedTree → Feed
  | .mk f _ _ _ => f

/-- The absolute URL the tree's root was fetched from. -/
def FeedTree.url : FeedTree → Str
  | .mk _ u _ _ => u

/-- The children table of a tree. -/
def FeedTree.children : FeedTree → List (Str × FeedTree)
  | .mk _ _ cs _ => cs

/-- The OpenSearch description URL recorded on the tree, if found. -/
def FeedTree.searchURL : FeedTree → Str
  | .mk _ _ _ s => s

/-- Lookup in a tree's children map (`tree.Children[key]`). -/
def lookupChild (t : FeedTree) (k : Str) : Option FeedTree :=
  match t.children.find? (fun p => decide (p.1 = k)) with
  | some p => some p.2
  | none => none

/-- Insertion into a tree's children map (`tree.Children[key] = child`);
    every modelled insertion site first checks the key is absent, so plain
    appending models the Go map store. -/
def insertChild (t : FeedTree) (k : Str) (c : FeedTree) : FeedTree :=
  .mk t.feed t.url (t.children ++ [(k, c)]) t.searchURL

/-- The parts of config.go `FeedConfig` the crawler reads (credentials are
    absorbed into the fetch oracle; `MaxPaginate` is absorbed into the
    resolver's fetch oracle). -/
structure FeedConfig where
  url : Str
  pollDepth : Nat
deriving DecidableEq

/-- crawler.go `isNavigationLink`: subsection links with a feed media
    type. -/
def isNavigationLink (l : Link) : Bool :=
  if l.rel ≠ RelSubsection then false
  else containsSub l.type (str "opds-catalog") || containsSub l.type (str "atom+xml")

/-- crawler.go `relativePath` (the crawler's own key computation: strip the
    base path, strip one leading slash, re-append the query). -/
def relativePath (base full : Str) : Str :=
  let baseURL := parseURL base
  let fullURL := parseURL full
  let rel := trimLeading (trimLeading fullURL.path baseURL.path) (str "/")
  if fullURL.query ≠ [] then rel ++ '?' :: fullURL.query else rel

mutual

/-- crawler.go `crawlChildren`: depth guard, then the entry/link loop.
    The Go loop `for entry in Entries, for link in entry.Links` only reads
    the link, so it is flattened into one link list. -/
def crawlChildren (fetch : Str → Option Feed) (cfg : FeedConfig)
    (tree : FeedTree) (baseURL : Str) (depth : Nat) : FeedTree :=
  if depth > cfg.pollDepth then tree
  else crawlLoop fetch cfg (tree.feed.entries.flatMap Entry.links) tree baseURL depth
termination_by (cfg.pollDepth + 1 - depth, 1, 0)

/-- The body of crawler.go `crawlChildren`'s loop: skip non-navigation
    links and already-known keys, skip children whose fetch fails, insert
    the rest, recursing first into navigation children within the depth
    budget (Go inserts the child and then grows it in place through the
    shared map reference; inserting the grown child is the same tree). -/
def crawlLoop (fetch : Str → Option Feed) (cfg : FeedConfig)
    (links : List Link) (tree : FeedTree) (baseURL : Str) (depth : Nat) : FeedTree :=
  match links with
  | [] => tree
  | link :: rest =>
    if isNavigationLink link = false then crawlLoop fetch cfg rest tree baseURL depth
    else
      let absURL := resolveURL baseURL link.href
      let relPath := relativePath cfg.url absURL
      match lookupChild tree relPath with
      | some _ => crawlLoop fetch cfg rest tree baseURL depth
      | none =>
        match fetch absURL with
        | none => crawlLoop fetch cfg rest tree baseURL depth
        | some child =>
          let childTree : FeedTree := .mk child absURL [] []
          let childTree :=
            if isNavigationFeed child then
              if _h : depth < cfg.pollDepth then
                crawlChildren fetch cfg childTree absURL (depth + 1)
              else childTree
            else childTree
          crawlLoop fetch cfg rest (insertChild tree relPath childTree) baseURL depth
termination_by (cfg.pollDepth + 1 - depth, 0, links.length)

end

/-- crawler.go `Crawl`: fetch the root (failure is fatal), record the
    search link, and crawl children when the configured depth is
    positive. -/
def crawl (fetch : Str → Option Feed) (cfg : FeedConfig) : Option FeedTree :=
  match fetch cfg.url with
  | none => none
  | some feed =>
    let searchURL :=
      match searchLink feed with
      | some sl => resolveURL cfg.url sl.href
      | none => []
    let tree : FeedTree := .mk feed cfg.url [] searchURL
    if cfg.pollDepth > 0 then some (crawlChildren fetch cfg tree cfg.url 1) else some tree

/-- The loop of crawler.go `FetchWithLimit`: follow `next` links, merging
    entries into the first page's feed.  Go resolves each next href against
    the original `feedURL` (the loop never rebinds it).  The Go `for` loop
    is unbounded, so the model carries explicit fuel; `none` stands for the
    loop not finishing within the fuel, and every theorem supplies enough
    fuel for the page chain in its hypotheses. -/
def fetchLoop (fetch : Str → Option Feed) (feedURL : Str)
    (feed current : Feed) (pageCount maxPages : Nat) : Nat → Option (Feed × Bool × Str)
  | 0 => none
  | fuel + 1 =>
    match nextLink current with
    | none => some (feed, false, [])
    | some l =>
      let nextURL := resolveURL feedURL l.href
      if maxPages > 0 ∧ pageCount ≥ maxPages then some (feed, true, nextURL)
      else
        match fetch nextURL with
        | none => some (feed, false, [])
        | some next =>
          fetchLoop fetch feedURL { feed with entries := feed.entries ++ next.entries }
            next (pageCount + 1) maxPages fuel

/-- crawler.go `FetchWithLimit`: fetch the first page (failure is fatal),
    then follow up to `maxPages` pages of `next` links (0 = unlimited).
    Result: merged feed, whether more pages remain, and the unconsumed next
    URL.  The outer `Option` distinguishes first-fetch failure
    (`some none`… flattened: `none` = first fetch failed or fuel ran out,
    see `fetchLoop` for the fuel convention). -/
def fetchWithLimit (fetch : Str → Option Feed) (feedURL : Str) (maxPages fuel : Nat) :
    Option (Feed × Bool × Str) :=
  match fetch feedURL with
  | none => none
  | some feed => fetchLoop fetch feedURL feed feed 1 maxPages fuel

/-- The chain of pages reachable from a current page by `next` links, as
    the pagination loop walks it: `chainFrom fetch base cur rest after`
    says the pages after `cur` are exactly `rest` (each fetched from the
    previous page's next href resolved against `base`), and `after` is
    `none` when the last page has no next link, or `some u` when after the
    listed pages a next link remains, resolving to `u`. -/
def chainFrom (fetch : Str → Option Feed) (base : Str) :
    Feed → List Feed → Option Str → Bool
  | cur, rest, after =>
    match nextLink cur with
    | none => rest.isEmpty && decide (after = none)
    | some l =>
      match rest with
      | [] => decide (after = some (resolveURL base l.href))
      | f :: rest' =>
        decide (fetch (resolveURL base l.href) = some f) && chainFrom fetch base f rest' after

/-- handlers.go `resolveFeed`, instrumented with the list of upstream URLs
    it attempts to fetch (the Go function's only effects are the fetches
    and the child insertions; pagination limits of the per-source
    `fetchWithPaginationLimit` wrapper are absorbed into the fetch oracle).
    Returns (served feed or `nil`, updated tree, attempted fetch URLs). -/
def resolveFeed (fetch : Str → Option Feed) (tree : FeedTree)
    (subPath rawQuery : Str) : Option Feed × FeedTree × List Str :=
  let sp := trimTrailing (trimLeading subPath (str "/")) (str "/")
  let cleanQuery := stripPaginationParams rawQuery
  if sp = [] ∧ cleanQuery = [] then (some tree.feed, tree, [])
  else
    let cacheKey := if cleanQuery ≠ [] then sp ++ '?' :: cleanQuery else sp
    match lookupChild tree cacheKey with
    | some child => (some child.feed, tree, [])
    | none =>
      let ext? : Option Str :=
        if sp = str "ext" then
          match parseQuery cleanQuery with
          | some qv =>
            let extURL := valsGet qv (str "url")
            if extURL ≠ [] then some extURL else none
          | none => none
        else none
      match ext? with
      | some extURL =>
        let extKey := str "ext?url=" ++ queryEscape extURL
        match lookupChild tree extKey with
        | some child => (some child.feed, tree, [])
        | none =>
          match fetch extURL with
          | none => (none, tree, [extURL])
          | some feed => (some feed, insertChild tree extKey (.mk feed extURL [] []), [extURL])
      | none =>
        let upstreamURL := joinURL tree.url sp cleanQuery
        match fetch upstreamURL with
        | none => (none, tree, [upstreamURL])
        | some feed =>
          (some feed, insertChild tree cacheKey (.mk feed upstreamURL [] []), [upstreamURL])

/-- The outcome of handlers.go `HandleSource` for a known source: the feed
    handed on to pagination slicing and `rewriteFeedLinks` (both pure, no
    cache effect), or the HTTP error written. -/
inductive Status where
  | ok (feed : Feed)
  | notFound
  | badGateway
deriving DecidableEq

/-- handlers.go `HandleSource`, restricted to its cache-state transitions
    for one known source: `entry` is the feed cache's entry for the slug
    (`none` = cold), `crawlRes` the oracle for `crawler.Crawl`, `fetch` the
    oracle for the resolver's on-demand fetches.  A cold request crawls and
    `Put`s the tree before resolving; the resolver then grows that same
    tree in place, so the cache ends up holding the resolver's updated
    tree.  Returns the new cache entry and the response status. -/
def handleSource (crawlRes : Option FeedTree) (fetch : Str → Option Feed)
    (entry : Option FeedTree) (subPath rawQuery : Str) : Option FeedTree × Status :=
  match entry with
  | none =>
    match crawlRes with
    | none => (none, .badGateway)
    | some tree =>
      let r := resolveFeed fetch tree subPath rawQuery
      match r.1 with
      | none => (some r.2.1, .notFound)
      | some f => (some r.2.1, .ok f)
  | some tree =>
    let r := resolveFeed fetch tree subPath rawQuery
    match r.1 with
    | none => (some r.2.1, .notFound)
    | some f => (some r.2.1, .ok f)

mutual

/-- Number of levels of tree nodes strictly below a node. -/
def levelsBelow : FeedTree → Nat
  | .mk _ _ cs _ => levelsBelowList cs

/-- Number of levels below a node, over its children list. -/
def levelsBelowList : List (Str × FeedTree) → Nat
  | [] => 0
  | (_, c) :: rest => max (1 + levelsBelow c) (levelsBelowList rest)

end

mutual

/-- A node only grown by recursive descent: every node strictly below the
    root that has children is itself a navigation feed. -/
def subOK : FeedTree → Bool
  | .mk _ _ cs _ => subOKList cs

/-- `subOK` over a children list: each child is either a leaf or a
    navigation feed, and its own subtree satisfies the same. -/
def subOKList : List (Str × FeedTree) → Bool
  | [] => true
  | (_, c) :: rest => ((c.children.isEmpty || isNavigationFeed c.feed) && subOK c) && subOKList rest

end

/-- An entry as stored behind a Go slice: its scalar fields plus a
    reference to the slice holding its links (Go slice headers point into a
    heap of backing arrays; the reference models that pointer). -/
structure HEntry where
  id : Str
  title : Str
  links : Nat
deriving DecidableEq

/-- A feed whose link and entry slices are heap references (see `Heap`). -/
structure HFeed where
  id : Str
  title : Str
  updated : Str
  links : Nat
  entries : Nat
deriving DecidableEq

/-- A heap of Go slice backing arrays, for stating that `rewriteFeedLinks`
    writes only to freshly-allocated slices and never into its input's.
    Reference 0 is the nil slice; fresh references count up from
    `nextRef`. -/
structure Heap where
  nextRef : Nat
  linkSlices : List (Nat × List Link)
  entrySlices : List (Nat × List HEntry)

/-- Lookup of a link-slice backing array. -/
def lookupL (h : Heap) (r : Nat) : Option (List Link) :=
  match h.linkSlices.find? (fun p => decide (p.1 = r)) with
  | some p => some p.2
  | none => none

/-- Lookup of an entry-slice backing array. -/
def lookupE (h : Heap) (r : Nat) : Option (List HEntry) :=
  match h.entrySlices.find? (fun p => decide (p.1 = r)) with
  | some p => some p.2
  | none => none

/-- Reading a link slice: nil or dangling references read as empty. -/
def readL (h : Heap) (r : Nat) : List Link := (lookupL h r).getD []

/-- Reading an entry slice: nil or dangling references read as empty. -/
def readE (h : Heap) (r : Nat) : List HEntry := (lookupE h r).getD []

/-- Allocation of a fresh link slice (Go `make([]opds.Link, n)` plus the
    loop that fills it: the writes all land in the fresh array). -/
def allocL (h : Heap) (ls : List Link) : Heap × Nat :=
  (⟨h.nextRef + 1, (h.nextRef, ls) :: h.linkSlices, h.entrySlices⟩, h.nextRef)

/-- Allocation of a fresh entry slice. -/
def allocE (h : Heap) (es : List HEntry) : Heap × Nat :=
  (⟨h.nextRef + 1, h.linkSlices, (h.nextRef, es) :: h.entrySlices⟩, h.nextRef)

/-- Heap well-formedness: every allocated reference is below the
    allocation counter, and the nil reference 0 is never allocated. -/
def heapWF (h : Heap) : Prop :=
  1 ≤ h.nextRef ∧
  (∀ p ∈ h.linkSlices, p.1 < h.nextRef ∧ 1 ≤ p.1) ∧
  (∀ p ∈ h.entrySlices, p.1 < h.nextRef ∧ 1 ≤ p.1)

/-- The body of the copy loop in rewrite.go `rewriteLinks`:
    `out[i] = l; out[i].Href = rewriteHref(l, ...)`. -/
def rwLink (slug baseUpstreamURL sourceRootURL proxyPrefix : Str) (l : Link) : Link :=
  { l with href := rewriteHref l slug baseUpstreamURL sourceRootURL proxyPrefix }

/-- rewrite.go `rewriteLinks`, at the slice-heap level: read the input
    slice, return nil (reference 0) for an empty input, otherwise allocate
    a fresh output slice (`out := make(...)`) and fill it with the
    href-rewritten copies — no write touches the input slice. -/
def rewriteLinksH (h : Heap) (r : Nat) (slug baseUpstreamURL sourceRootURL proxyPrefix : Str) :
    Heap × Nat :=
  let links := readL h r
  if links.isEmpty then (h, 0)
  else allocL h (links.map (rwLink slug baseUpstreamURL sourceRootURL proxyPrefix))

/-- One iteration of the entry-copy loop in rewrite.go `rewriteFeedLinks`:
    `out.Entries[i] = e; out.Entries[i].Links = rewriteLinks(e.Links, ...)`. -/
def rwEntryStep (slug baseUpstreamURL sourceRootURL proxyPrefix : Str)
    (acc : Heap × List HEntry) (e : HEntry) : Heap × List HEntry :=
  let r := rewriteLinksH acc.1 e.links slug baseUpstreamURL sourceRootURL proxyPrefix
  (r.1, acc.2 ++ [{ e with links := r.2 }])

/-- rewrite.go `rewriteFeedLinks`, at the slice-heap level: `out := *feed`
    copies the struct, `out.Links` and `out.Entries` are replaced by fresh
    slices, and each copied entry in the fresh entry slice gets a fresh
    rewritten link slice (Go allocates `out.Entries` before the loop and
    writes the copies into it during the loop; allocating it after the
    copies are computed touches the same heap cells). -/
def rewriteFeedLinksH (h : Heap) (feed : HFeed)
    (slug baseUpstreamURL sourceRootURL proxyPrefix : Str) : Heap × HFeed :=
  let r1 := rewriteLinksH h feed.links slug baseUpstreamURL sourceRootURL proxyPrefix
  let entries := readE r1.1 feed.entries
  let r2 := entries.foldl (rwEntryStep slug baseUpstreamURL sourceRootURL proxyPrefix) (r1.1, [])
  let r3 := allocE r2.1 r2.2
  (r3.1, { feed with links := r1.2, entries := r3.2 })

/-- Validity of a feed's slice references: each one was allocated by the
    heap (is below the allocation counter), as Go guarantees for any value
    it builds. -/
def feedRefsOK (h : Heap) (feed : HFeed) : Prop :=
  feed.links < h.nextRef ∧ feed.entries < h.nextRef ∧
  ∀ e ∈ readE h feed.entries, e.links < h.nextRef

instance (h : Heap) : Decidable (heapWF h) := by
  unfold heapWF
  infer_instance

instance (h : Heap) (feed : HFeed) : Decidable (feedRefsOK h feed) := by
  unfold feedRefsOK
  infer_instance

/-- A concrete two-link, one-entry heap used to exercise the slice-heap
    model on explicit input. -/
def heapC10 : Heap :=
  ⟨4, [(1, [⟨str "subsection", str "/a", str "application/atom+xml"⟩]),
       (2, [⟨str "subsection", str "/b", str "application/atom+xml"⟩])],
      [(3, [⟨str "e1", str "E1", 2⟩])]⟩

/-- A concrete feed over `heapC10`: its links live in slice 1, its entries
    in slice 3, and its single entry's links in slice 2. -/
def feedC10 : HFeed := ⟨str "f", str "F", str "now", 1, 3⟩

/-- A concrete root catalog with one navigation link, for exercising the
    crawler on explicit input. -/
def rootFeedC4 : Feed :=
  ⟨str "r", str "R", str "t", [],
   [⟨str "e1", str "E1", [⟨str "subsection", str "/c/a", str "application/atom+xml"⟩]⟩]⟩

/-- A concrete navigation sub-catalog reachable from `rootFeedC4`. -/
def childFeedC4 : Feed :=
  ⟨str "c", str "C", str "t", [],
   [⟨str "e2", str "E2", [⟨str "subsection", str "/c/b", str "application/atom+xml"⟩]⟩]⟩

/-- A concrete fetch oracle serving `rootFeedC4` and `childFeedC4`. -/
def fetchC4 : Str → Option Feed := fun u =>
  if u = str "http://h/c" then some rootFeedC4
  else if u = str "http://h/c/a" then some childFeedC4
  else none

/-- A concrete root catalog with three navigation links, the middle of
    which points at a sub-catalog whose fetch will fail. -/
def rootFeedC6 : Feed :=
  ⟨str "r", str "R", str "t", [],
   [⟨str "e1", str "E1",
     [⟨str "subsection", str "/c/a", str "application/atom+xml"⟩,
      ⟨str "subsection", str "/c/x", str "application/atom+xml"⟩,
      ⟨str "subsection", str "/c/b", str "application/atom+xml"⟩]⟩]⟩

/-- A concrete leaf sub-catalog. -/
def leafFeedA : Feed := ⟨str "a", str "A", str "t", [], []⟩

/-- A concrete leaf sub-catalog. -/
def leafFeedB : Feed := ⟨str "b", str "B", str "t", [], []⟩

/-- A concrete fetch oracle for `rootFeedC6` under which the `/c/x`
    sub-catalog fetch fails while `/c/a` and `/c/b` succeed. -/
def fetchC6 : Str → Option Feed := fun u =>
  if u = str "http://h/c" then some rootFeedC6
  else if u = str "http://h/c/a" then some leafFeedA
  else if u = str "http://h/c/b" then some leafFeedB
  else none

/-! ### String-primitive lemmas -/

theorem containsChar_nil (c : Char) : containsChar [] c = false := rfl

theorem containsChar_cons (x : Char) (t : Str) (c : Char) :
    containsChar (x :: t) c = (decide (x = c) || containsChar t c) := by
  simp [containsChar]

theorem containsChar_append (a b : Str) (c : Char) :
    containsChar (a ++ b) c = (containsChar a c || containsChar b c) := by
  simp [containsChar]

theorem cutChar_append {a : Str} (b : Str) {c : Char} (h : containsChar a c = false) :
    cutChar c (a ++ c :: b) = (a, b, true) := by
  induction a with
  | nil => simp [cutChar]
  | cons x t ih =>
    rw [containsChar_cons, Bool.or_eq_false_iff] at h
    have hx : ¬ x = c := by simpa using h.1
    simp only [List.cons_append, cutChar, if_neg hx, List.append_eq, ih h.2]

theorem endsWith_concat (a : Str) (x c : Char) : endsWith (a ++ [x]) [c] = decide (x = c) := by
  simp [endsWith, startsWith]

theorem trimTrailing_concat_ne (a : Str) {x c : Char} (h : x ≠ c) :
    trimTrailing (a ++ [x]) [c] = a ++ [x] := by
  simp [trimTrailing, endsWith_concat, h]

theorem trimTrailing_nil (p : Str) : trimTrailing [] p = [] := by
  cases p <;> simp [trimTrailing, endsWith, startsWith]

theorem trimTrailing_of_not_contains {s : Str} {c : Char} (h : containsChar s c = false) :
    trimTrailing s [c] = s := by
  rcases List.eq_nil_or_concat s with rfl | ⟨s', x, rfl⟩
  · exact trimTrailing_nil _
  · simp only [List.concat_eq_append] at h ⊢
    rw [containsChar_append, Bool.or_eq_false_iff] at h
    have hx : x ≠ c := by
      have h2 := h.2
      rw [containsChar_cons, Bool.or_eq_false_iff] at h2
      simpa using h2.1
    exact trimTrailing_concat_ne _ hx

theorem unhex_hexDigitU {n : Nat} (h : n < 16) : unhexDigit (hexDigitU n) = some n := by
  interval_cases n <;> decide

theorem hexDigitU_unreserved {n : Nat} (h : n < 16) : isUnreservedChar (hexDigitU n) = true := by
  interval_cases n <;> decide

theorem unhexDigit_lt {c : Char} {n : Nat} (h : unhexDigit c = some n) : n < 16 := by
  change (if 48 ≤ c.toNat ∧ c.toNat ≤ 57 then some (c.toNat - 48)
    else if 65 ≤ c.toNat ∧ c.toNat ≤ 70 then some (c.toNat - 55)
    else if 97 ≤ c.toNat ∧ c.toNat ≤ 102 then some (c.toNat - 87)
    else none) = some n at h
  split at h
  · cases h; omega
  · split at h
    · cases h; omega
    · split at h
      · cases h; omega
      · cases h

theorem toNat_ofNat_lt256 (n : Nat) (h : n < 256) : (Char.ofNat n).toNat = n := by
  have hv : n.isValidChar := Or.inl (by omega)
  rw [Char.ofNat, dif_pos hv]
  simp [Char.ofNatAux, Char.toNat, UInt32.toNat]

theorem queryUnescape_cons {c : Char} (t : Str) (hp : ¬ c = '%') (hpl : ¬ c = '+') :
    queryUnescape (c :: t) = (c :: ·) <$> queryUnescape t := by
  conv_lhs => rw [queryUnescape.eq_def]
  change (if c = '%' then _ else if c = '+' then _ else (c :: ·) <$> queryUnescape t) = _
  rw [if_neg hp, if_neg hpl]

theorem queryUnescape_plus (t : Str) : queryUnescape ('+' :: t) = (' ' :: ·) <$> queryUnescape t := by
  conv_lhs => rw [queryUnescape.eq_def]
  change (if '+' = '%' then _ else if '+' = '+' then (' ' :: ·) <$> queryUnescape t else _) = _
  rw [if_neg (by decide), if_pos rfl]

theorem queryUnescape_pct (h l : Char) (t : Str) :
    queryUnescape ('%' :: h :: l :: t) =
      (match unhexDigit h, unhexDigit l with
       | some hi, some lo => (Char.ofNat (hi * 16 + lo) :: ·) <$> queryUnescape t
       | _, _ => none) := rfl

theorem containsChar_queryEscape {s : Str} {d : Char} (hs : ∀ c ∈ s, c.toNat < 256)
    (hd1 : isUnreservedChar d = false) (hd2 : d ≠ '+') (hd3 : d ≠ '%') :
    containsChar (queryEscape s) d = false := by
  induction s with
  | nil => rfl
  | cons c t ih =>
    have hc : c.toNat < 256 := hs c (by simp)
    have hrest : containsChar (queryEscape t) d = false := ih (fun x hx => hs x (by simp [hx]))
    have hstep : queryEscape (c :: t) = escapeChar c ++ queryEscape t := by
      simp [queryEscape]
    rw [hstep, containsChar_append, hrest, Bool.or_false]
    by_cases h1 : isUnreservedChar c
    · have hcd : c ≠ d := fun he => by rw [he] at h1; rw [h1] at hd1; cases hd1
      simp [escapeChar, h1, containsChar, hcd]
    · by_cases h2 : c = ' '
      · subst h2
        simp [escapeChar, h1, containsChar, Ne.symm hd2]
      · have hhi : c.toNat / 16 < 16 := by omega
        have hlo : c.toNat % 16 < 16 := Nat.mod_lt _ (by norm_num)
        have e1 : hexDigitU (c.toNat / 16) ≠ d := fun he => by
          have hu := hexDigitU_unreserved hhi
          rw [he, hd1] at hu; cases hu
        have e2 : hexDigitU (c.toNat % 16) ≠ d := fun he => by
          have hu := hexDigitU_unreserved hlo
          rw [he, hd1] at hu; cases hu
        simp [escapeChar, h1, h2, containsChar, Ne.symm hd3, e1, e2]

theorem queryUnescape_escapeChar {c : Char} (hc : c.toNat < 256) (t : Str) :
    queryUnescape (escapeChar c ++ t) = (c :: ·) <$> queryUnescape t := by
  by_cases h1 : isUnreservedChar c
  · have hp : ¬ c = '%' := fun he => by rw [he] at h1; cases h1
    have hpl : ¬ c = '+' := fun he => by rw [he] at h1; cases h1
    rw [show escapeChar c = [c] from by simp [escapeChar, h1], List.singleton_append,
      queryUnescape_cons t hp hpl]
  · by_cases h2 : c = ' '
    · subst h2
      rw [show escapeChar ' ' = ['+'] from by decide, List.singleton_append,
        queryUnescape_plus t]
    · have hhi : c.toNat / 16 < 16 := by omega
      have hlo : c.toNat % 16 < 16 := Nat.mod_lt _ (by norm_num)
      have hmod : c.toNat / 16 * 16 + c.toNat % 16 = c.toNat := by omega
      rw [show escapeChar c = ['%', hexDigitU (c.toNat / 16), hexDigitU (c.toNat % 16)] from by
          simp [escapeChar, h1, h2],
        show (['%', hexDigitU (c.toNat / 16), hexDigitU (c.toNat % 16)] : Str) ++ t =
          '%' :: hexDigitU (c.toNat / 16) :: hexDigitU (c.toNat % 16) :: t from rfl,
        queryUnescape_pct, unhex_hexDigitU hhi, unhex_hexDigitU hlo]
      change ((Char.ofNat (c.toNat / 16 * 16 + c.toNat % 16) :: ·) <$> queryUnescape t) = _
      rw [hmod, Char.ofNat_toNat]

theorem queryUnescape_queryEscape {s : Str} (hs : ∀ c ∈ s, c.toNat < 256) :
    queryUnescape (queryEscape s) = some s := by
  induction s with
  | nil => rfl
  | cons c t ih =>
    have hstep : queryEscape (c :: t) = escapeChar c ++ queryEscape t := by
      simp [queryEscape]
    rw [hstep, queryUnescape_escapeChar (hs c (by simp)),
      ih (fun x hx => hs x (by simp [hx]))]
    rfl

theorem queryUnescape_chars_lt256 :
    ∀ {s t : Str}, (∀ c ∈ s, c.toNat < 256) → queryUnescape s = some t →
      ∀ c ∈ t, c.toNat < 256 := by
  have main : ∀ n (s t : Str), s.length ≤ n → (∀ c ∈ s, c.toNat < 256) →
      queryUnescape s = some t → ∀ c ∈ t, c.toNat < 256 := by
    intro n
    induction n with
    | zero =>
      intro s t hlen hs h
      match s with
      | [] =>
        rw [show queryUnescape [] = some [] from rfl] at h
        cases h; simp
      | _ :: _ => simp at hlen
    | succ n ih =>
      intro s t hlen hs h
      match s with
      | [] =>
        rw [show queryUnescape [] = some [] from rfl] at h
        cases h; simp
      | c :: r =>
        by_cases hp : c = '%'
        · subst hp
          match r with
          | [] => rw [show queryUnescape ['%'] = none from rfl] at h; cases h
          | [x] =>
            rw [show queryUnescape ['%', x] = (none : Option Str) from rfl] at h
            cases h
          | h1 :: l1 :: r' =>
            rw [queryUnescape_pct] at h
            cases hu1 : unhexDigit h1 with
            | none => rw [hu1] at h; cases h
            | some hi =>
              cases hu2 : unhexDigit l1 with
              | none => rw [hu1, hu2] at h; cases h
              | some lo =>
                rw [hu1, hu2] at h
                cases hq : queryUnescape r' with
                | none => rw [hq] at h; cases h
                | some t' =>
                  rw [hq] at h
                  cases h
                  intro c hcmem
                  rcases List.mem_cons.mp hcmem with rfl | hcm
                  · have b1 : hi < 16 := unhexDigit_lt hu1
                    have b2 : lo < 16 := unhexDigit_lt hu2
                    rw [toNat_ofNat_lt256 _ (by omega)]
                    omega
                  · exact ih r' t' (by simp at hlen; omega)
                      (fun x hx => hs x (by simp [hx])) hq c hcm
        · by_cases hpl : c = '+'
          · subst hpl
            rw [queryUnescape_plus] at h
            cases hq : queryUnescape r with
            | none => rw [hq] at h; cases h
            | some t' =>
              rw [hq] at h
              cases h
              intro c hcmem
              rcases List.mem_cons.mp hcmem with rfl | hcm
              · decide
              · exact ih r t' (by simp at hlen; omega)
                  (fun x hx => hs x (by simp [hx])) hq c hcm
          · rw [queryUnescape_cons r hp hpl] at h
            cases hq : queryUnescape r with
            | none => rw [hq] at h; cases h
            | some t' =>
              rw [hq] at h
              cases h
              intro d hcmem
              rcases List.mem_cons.mp hcmem with rfl | hcm
              · exact hs d (by simp)
              · exact ih r t' (by simp at hlen; omega)
                  (fun x hx => hs x (by simp [hx])) hq d hcm
  intro s t hs h
  exact main s.length s t le_rfl hs h

/-! ### Query split / join lemmas -/

theorem goSplit_no {s : Str} (c : Char) (h : containsChar s c = false) (hs : s ≠ []) :
    goSplit c s = [s] := by
  induction s with
  | nil => exact absurd rfl hs
  | cons x t ih =>
    rw [containsChar_cons, Bool.or_eq_false_iff] at h
    have hx : ¬ x = c := by simpa using h.1
    by_cases ht : t = []
    · subst ht
      simp [goSplit, hx]
    · rw [goSplit, if_neg hx, ih h.2 ht]

theorem goSplit_sep {a : Str} (b : Str) (c : Char) (h : containsChar a c = false) :
    goSplit c (a ++ c :: b) = a :: goSplit c b := by
  induction a with
  | nil => simp [goSplit]
  | cons x t ih =>
    rw [containsChar_cons, Bool.or_eq_false_iff] at h
    have hx : ¬ x = c := by simpa using h.1
    rw [List.cons_append, goSplit, if_neg hx, ih h.2]

theorem goSplit_chars {c : Char} : ∀ {s : Str}, ∀ a ∈ goSplit c s, ∀ d ∈ a, d ∈ s := by
  intro s
  induction s with
  | nil => simp [goSplit]
  | cons x t ih =>
    intro a ha d hd
    by_cases hx : x = c
    · rw [goSplit, if_pos hx] at ha
      rcases List.mem_cons.mp ha with rfl | ha'
      · cases hd
      · exact List.mem_cons_of_mem x (ih a ha' d hd)
    · rw [goSplit, if_neg hx] at ha
      cases hgs : goSplit c t with
      | nil =>
        rw [hgs] at ha
        rcases List.mem_cons.mp ha with rfl | ha'
        · rcases List.mem_cons.mp hd with rfl | hd'
          · simp
          · cases hd'
        · cases ha'
      | cons a0 rest =>
        rw [hgs] at ha
        rcases List.mem_cons.mp ha with rfl | ha'
        · rcases List.mem_cons.mp hd with rfl | hd'
          · simp
          · exact List.mem_cons_of_mem x (ih a0 (by rw [hgs]; simp) d hd')
        · exact List.mem_cons_of_mem x (ih a (by rw [hgs]; simp [ha']) d hd)

theorem cutChar_chars {c : Char} : ∀ {s : Str},
    (∀ d ∈ (cutChar c s).1, d ∈ s) ∧ (∀ d ∈ (cutChar c s).2.1, d ∈ s) := by
  intro s
  induction s with
  | nil => simp [cutChar]
  | cons x t ih =>
    by_cases hx : x = c
    · subst hx
      simp only [cutChar, if_pos rfl]
      exact ⟨by simp, fun d hd => List.mem_cons_of_mem _ hd⟩
    · simp only [cutChar, if_neg hx]
      constructor
      · intro d hd
        rcases List.mem_cons.mp hd with rfl | hd'
        · simp
        · exact List.mem_cons_of_mem _ (ih.1 d hd')
      · intro d hd
        exact List.mem_cons_of_mem _ (ih.2 d hd)

theorem mem_insertPair {x p : Str × Str} : ∀ {l : List (Str × Str)},
    x ∈ insertPair p l ↔ x = p ∨ x ∈ l := by
  intro l
  induction l with
  | nil => simp [insertPair]
  | cons q rest ih =>
    rw [insertPair]
    split
    · simp only [List.mem_cons, ih]
      tauto
    · simp only [List.mem_cons]

theorem mem_sortPairs {x : Str × Str} : ∀ {l : List (Str × Str)}, x ∈ sortPairs l ↔ x ∈ l := by
  intro l
  induction l with
  | nil => simp [sortPairs]
  | cons p rest ih => rw [sortPairs, mem_insertPair, ih]; simp

theorem parseQueryComps_cons_enc {k v : Str} (comps : List Str)
    (hk : ∀ c ∈ k, c.toNat < 256) (hv : ∀ c ∈ v, c.toNat < 256) :
    parseQueryComps ((queryEscape k ++ '=' :: queryEscape v) :: comps) =
      (fun ps => (k, v) :: ps) <$> parseQueryComps comps := by
  have hne : (queryEscape k ++ '=' :: queryEscape v) ≠ [] := by simp
  have hsemi : containsChar (queryEscape k ++ '=' :: queryEscape v) ';' = false := by
    rw [containsChar_append, containsChar_cons,
      containsChar_queryEscape hk (by decide) (by decide) (by decide),
      containsChar_queryEscape hv (by decide) (by decide) (by decide)]
    simp
  have hcut : cutChar '=' (queryEscape k ++ '=' :: queryEscape v) = (queryEscape k, queryEscape v, true) :=
    cutChar_append _ (containsChar_queryEscape hk (by decide) (by decide) (by decide))
  rw [parseQueryComps, if_neg (by simp [hne]), if_neg (by simp [hsemi]), hcut]
  simp only [queryUnescape_queryEscape hk, queryUnescape_queryEscape hv]

theorem parseQuery_encodedPairs : ∀ (qs : List (Str × Str)),
    (∀ p ∈ qs, (∀ c ∈ p.1, c.toNat < 256) ∧ (∀ c ∈ p.2, c.toNat < 256)) →
    parseQuery (joinWith '&' (qs.map (fun p => queryEscape p.1 ++ '=' :: queryEscape p.2))) =
      some qs := by
  intro qs
  induction qs with
  | nil => intro _; rfl
  | cons q qs' ih =>
    intro h
    have hq := h q (by simp)
    cases qs' with
    | nil =>
      have hsplit : goSplit '&' (queryEscape q.1 ++ '=' :: queryEscape q.2) =
          [queryEscape q.1 ++ '=' :: queryEscape q.2] := by
        apply goSplit_no
        · rw [containsChar_append, containsChar_cons,
            containsChar_queryEscape hq.1 (by decide) (by decide) (by decide),
            containsChar_queryEscape hq.2 (by decide) (by decide) (by decide)]
          simp
        · simp
      rw [List.map_cons, List.map_nil, joinWith, parseQuery, hsplit,
        parseQueryComps_cons_enc _ hq.1 hq.2]
      rfl
    | cons q2 rest =>
      have hcomp : containsChar (queryEscape q.1 ++ '=' :: queryEscape q.2) '&' = false := by
        rw [containsChar_append, containsChar_cons,
          containsChar_queryEscape hq.1 (by decide) (by decide) (by decide),
          containsChar_queryEscape hq.2 (by decide) (by decide) (by decide)]
        simp
      have hjw : joinWith '&' (((q :: q2 :: rest).map
          (fun p => queryEscape p.1 ++ '=' :: queryEscape p.2))) =
          (queryEscape q.1 ++ '=' :: queryEscape q.2) ++ '&' ::
            joinWith '&' ((q2 :: rest).map (fun p => queryEscape p.1 ++ '=' :: queryEscape p.2)) := by
        rfl
      rw [parseQuery, hjw, goSplit_sep _ _ hcomp, parseQueryComps_cons_enc _ hq.1 hq.2,
        show parseQueryComps (goSplit '&' (joinWith '&' ((q2 :: rest).map
          (fun p => queryEscape p.1 ++ '=' :: queryEscape p.2)))) =
          parseQuery (joinWith '&' ((q2 :: rest).map
            (fun p => queryEscape p.1 ++ '=' :: queryEscape p.2))) from rfl,
        ih (fun p hp => h p (by simp [List.mem_cons.mp hp]))]
      rfl

theorem parseQuery_valsEncode {ps : List (Str × Str)}
    (h : ∀ p ∈ ps, (∀ c ∈ p.1, c.toNat < 256) ∧ (∀ c ∈ p.2, c.toNat < 256)) :
    parseQuery (valsEncode ps) = some (sortPairs ps) := by
  rw [valsEncode]
  exact parseQuery_encodedPairs (sortPairs ps) (fun p hp => h p (mem_sortPairs.mp hp))

theorem parseQueryComps_bytes : ∀ {comps : List Str} {ps : List (Str × Str)},
    (∀ comp ∈ comps, ∀ c ∈ comp, c.toNat < 256) → parseQueryComps comps = some ps →
    ∀ p ∈ ps, (∀ c ∈ p.1, c.toNat < 256) ∧ (∀ c ∈ p.2, c.toNat < 256) := by
  intro comps
  induction comps with
  | nil =>
    intro ps _ h
    rw [show parseQueryComps [] = some [] from rfl] at h
    cases h
    simp
  | cons comp rest ih =>
    intro ps hb h
    rw [parseQueryComps] at h
    split at h
    · exact ih (fun c hc => hb c (by simp [hc])) h
    · split at h
      · cases h
      · cases hk : queryUnescape (cutChar '=' comp).1 with
        | none => rw [hk] at h; cases h
        | some k =>
          cases hv : queryUnescape (cutChar '=' comp).2.1 with
          | none => rw [hk, hv] at h; cases h
          | some v =>
            rw [hk, hv] at h
            cases hrest : parseQueryComps rest with
            | none => rw [hrest] at h; cases h
            | some ps' =>
              rw [hrest] at h
              cases h
              intro p hp
              have hcompb : ∀ c ∈ comp, c.toNat < 256 := hb comp (by simp)
              rcases List.mem_cons.mp hp with rfl | hp'
              · exact ⟨queryUnescape_chars_lt256
                    (fun c hc => hcompb c (cutChar_chars.1 c hc)) hk,
                  queryUnescape_chars_lt256
                    (fun c hc => hcompb c (cutChar_chars.2 c hc)) hv⟩
              · exact ih (fun c hc => hb c (by simp [hc])) hrest p hp'

theorem parseQuery_bytes {q : Str} {ps : List (Str × Str)}
    (hq : ∀ c ∈ q, c.toNat < 256) (h : parseQuery q = some ps) :
    ∀ p ∈ ps, (∀ c ∈ p.1, c.toNat < 256) ∧ (∀ c ∈ p.2, c.toNat < 256) :=
  parseQueryComps_bytes (fun comp hc d hd => hq d (goSplit_chars comp hc d hd)) h

/-! ### URL parse / render lemmas -/

theorem map_entries_id (es : List Entry) (slug base root px : Str)
    (he : ∀ e ∈ es, rewriteLinks e.links slug base root px = e.links) :
    es.map (fun e => { e with links := rewriteLinks e.links slug base root px }) = es := by
  induction es with
  | nil => rfl
  | cons e rest ih =>
    rw [List.map_cons, he e (by simp), ih (fun x hx => he x (by simp [hx]))]

theorem rewriteLinks_id (ls : List Link) (slug base root px : Str)
    (h : ∀ l ∈ ls, isAggregatorPath l.href = true) :
    rewriteLinks ls slug base root px = ls := by
  rw [rewriteLinks]
  split
  · rename_i he
    rw [List.isEmpty_iff] at he
    exact he.symm
  · induction ls with
    | nil => rfl
    | cons l rest ih =>
      rw [List.map_cons]
      have h1 : rewriteHref l slug base root px = l.href := by
        rw [rewriteHref, if_pos (h l (by simp))]
      rw [h1]
      have h2 : rest.map (fun l => { l with href := rewriteHref l slug base root px }) = rest := by
        cases hre : rest.isEmpty with
        | true => rw [List.isEmpty_iff] at hre; rw [hre]; rfl
        | false => exact ih (fun l hl => h l (by simp [hl])) (by simp [hre])
      rw [h2]

/-- C2: a link whose href is already a gateway-local route pattern is
    returned unchanged by `rewriteHref`, and a feed all of whose links
    (document-level and per-entry) are gateway-local is rewritten to an
    identical feed. -/
theorem C2_idempotent_rewrite :
    (∀ (l : Link) (slug base root px : Str), isAggregatorPath l.href = true →
      rewriteHref l slug base root px = l.href) ∧
    (∀ (feed : Feed) (slug base root px : Str),
      (∀ l ∈ feed.links ++ feed.entries.flatMap Entry.links, isAggregatorPath l.href = true) →
      rewriteFeedLinks feed slug base root px = feed) := by
  constructor
  · intro l slug base root px h
    rw [rewriteHref, if_pos h]
  · intro feed slug base root px h
    obtain ⟨fid, ftitle, fupdated, flinks, fentries⟩ := feed
    rw [rewriteFeedLinks]
    simp only [Feed.mk.injEq, true_and]
    constructor
    · exact rewriteLinks_id _ _ _ _ _ (fun l hl => h l (by simp at hl ⊢; exact Or.inl hl))
    · have he : ∀ e ∈ fentries, rewriteLinks e.links slug base root px = e.links := by
        intro e hemem
        refine rewriteLinks_id _ _ _ _ _ (fun l hl => h l ?_)
        simp only [List.mem_append, List.mem_flatMap]
        exact Or.inr ⟨e, hemem, hl⟩
      exact map_entries_id fentries slug base root px he

/-- C2 witness: a feed whose three links are a source-proxy path, a
    download path with the `?url=` marker and a search path with `?q=` is
    rewritten to itself. -/
theorem C2_witness :
    rewriteFeedLinks
      ⟨str "i", str "t", str "u",
        [⟨str "self", str "/opds/source/lib/books", []⟩],
        [⟨str "e", str "b",
          [⟨RelAcquisition, str "/opds/download/lib?url=x", []⟩,
           ⟨RelSearch, str "/opds/search/lib?q=a", []⟩]⟩]⟩
      (str "lib") (str "http://h/") (str "http://h/") [] =
    ⟨str "i", str "t", str "u",
      [⟨str "self", str "/opds/source/lib/books", []⟩],
      [⟨str "e", str "b",
        [⟨RelAcquisition, str "/opds/download/lib?url=x", []⟩,
         ⟨RelSearch, str "/opds/search/lib?q=a", []⟩]⟩]⟩ :=
  C2_idempotent_rewrite.2 _ (str "lib") (str "http://h/") (str "http://h/") []
    (by decide)

/-! ### C7: navigation classification -/

/-- C7: the claim's "iff" fails on the empty document — a Document with no
    entries has no entry exposing an acquisition-class link, yet
    `IsNavigationFeed` returns false for it. -/
theorem C7_counterexample :
    (∀ e ∈ (Feed.mk [] [] [] [] []).entries, hasAcquisitionLinks e = false) ∧
    isNavigationFeed (Feed.mk [] [] [] [] []) = false :=
  ⟨fun e he => absurd he (List.not_mem_nil e), rfl⟩

/-- C7 (amended): `IsNavigationFeed` returns true iff the document has at
    least one entry and none of its entries exposes an acquisition-class
    link (relation among acquisition, open-access, borrow, buy, sample,
    subscribe); a document with no entries is not classified as
    navigation. -/
theorem C7_navigation_iff (f : Feed) :
    isNavigationFeed f = true ↔
      (f.entries ≠ [] ∧ ∀ e ∈ f.entries, hasAcquisitionLinks e = false) := by
  rw [isNavigationFeed]
  split
  · rename_i he
    rw [List.isEmpty_iff] at he
    simp [he]
  · rename_i he
    rw [List.isEmpty_iff] at he
    simp only [List.all_eq_true, Bool.not_eq_true', ne_eq, he, not_false_iff, true_and]

/-! ### C3: cross-host links and the ext escape hatch -/

theorem makeRelativePath_ext {base full : Str}
    (h : (parseURL base).host ≠ (parseURL full).host) :
    makeRelativePath base full = str "ext?url=" ++ queryEscape full := by
  rw [makeRelativePath]
  simp only [if_pos h]

theorem parseQuery_url_enc (full : Str) (hb : ∀ c ∈ full, c.toNat < 256) :
    parseQuery (str "url=" ++ queryEscape full) = some [(str "url", full)] := by
  have h1 : str "url=" ++ queryEscape full =
      joinWith '&' ([(str "url", full)].map (fun p => queryEscape p.1 ++ '=' :: queryEscape p.2)) := rfl
  rw [h1]
  exact parseQuery_encodedPairs _ (by
    intro p hp
    rcases List.mem_singleton.mp hp with rfl
    exact ⟨(by decide : ∀ c ∈ str "url", c.toNat < 256), hb⟩)

theorem stripPagination_url_enc (full : Str) (hb : ∀ c ∈ full, c.toNat < 256) :
    stripPaginationParams (str "url=" ++ queryEscape full) = str "url=" ++ queryEscape full := by
  rw [stripPaginationParams, if_neg (by simp [str]), parseQuery_url_enc full hb]
  rfl

theorem resolveFeed_ext_fetches
    (full : Str) (hb : ∀ c ∈ full, c.toNat < 256) (hne : full ≠ [])
    (fetch : Str → Option Feed) (tree : FeedTree)
    (hmiss : lookupChild tree (str "ext?url=" ++ queryEscape full) = none) :
    (resolveFeed fetch tree (str "ext") (str "url=" ++ queryEscape full)).2.2 = [full] ∧
    (resolveFeed fetch tree (str "ext") (str "url=" ++ queryEscape full)).1 = fetch full := by
  have hck : str "ext" ++ '?' :: (str "url=" ++ queryEscape full) =
      str "ext?url=" ++ queryEscape full := rfl
  simp only [resolveFeed]
  rw [show trimTrailing (trimLeading (str "ext") (str "/")) (str "/") = str "ext" from rfl]
  rw [stripPagination_url_enc full hb]
  rw [if_neg (by simp [str])]
  rw [if_pos (show (str "url=" ++ queryEscape full : Str) ≠ [] by simp [str])]
  rw [hck, hmiss]
  rw [if_pos rfl, parseQuery_url_enc full hb]
  dsimp only
  rw [show valsGet [(str "url", full)] (str "url") = full from rfl]
  rw [if_pos hne]
  dsimp only
  rw [hmiss]
  cases hf : fetch full <;> simp [hf]

/-- C3: for a resolved href on a different host than the source root, the
    forward rewrite emits `ext?url=` with the percent-encoded absolute
    href, and a subsequent uncached request for that gateway path (sub-path
    `ext` with query `url=<encoded>`) makes the resolver attempt exactly
    one upstream fetch, of exactly the original absolute URL, serving its
    result.  (The byte-range hypothesis keeps the URL within the domain on
    which the character-level model of Go's percent-coding is faithful.) -/
theorem C3_ext_escape_hatch
    (base full : Str) (hhost : (parseURL base).host ≠ (parseURL full).host)
    (hb : ∀ c ∈ full, c.toNat < 256) (hne : full ≠ [])
    (fetch : Str → Option Feed) (tree : FeedTree)
    (hmiss : lookupChild tree (str "ext?url=" ++ queryEscape full) = none) :
    makeRelativePath base full = str "ext?url=" ++ queryEscape full ∧
    (resolveFeed fetch tree (str "ext") (str "url=" ++ queryEscape full)).2.2 = [full] ∧
    (resolveFeed fetch tree (str "ext") (str "url=" ++ queryEscape full)).1 = fetch full :=
  ⟨makeRelativePath_ext hhost,
    (resolveFeed_ext_fetches full hb hne fetch tree hmiss).1,
    (resolveFeed_ext_fetches full hb hne fetch tree hmiss).2⟩

/-- C3 witness: the spec's own example — `https://other.org/x` on a
    document rooted at `https://ex.org/` goes through `ext?url=` and is
    fetched back directly. -/
theorem C3_witness :
    makeRelativePath (str "https://ex.org/") (str "https://other.org/x") =
      str "ext?url=" ++ queryEscape (str "https://other.org/x") ∧
    (resolveFeed
      (fun u => if u = str "https://other.org/x" then some (Feed.mk (str "ok") [] [] [] []) else none)
      (FeedTree.mk (Feed.mk [] [] [] [] []) (str "https://ex.org/") [] [])
      (str "ext") (str "url=" ++ queryEscape (str "https://other.org/x"))).2.2 =
      [str "https://other.org/x"] ∧
    (resolveFeed
      (fun u => if u = str "https://other.org/x" then some (Feed.mk (str "ok") [] [] [] []) else none)
      (FeedTree.mk (Feed.mk [] [] [] [] []) (str "https://ex.org/") [] [])
      (str "ext") (str "url=" ++ queryEscape (str "https://other.org/x"))).1 =
      (fun u => if u = str "https://other.org/x" then some (Feed.mk (str "ok") [] [] [] []) else none)
        (str "https://other.org/x") :=
  C3_ext_escape_hatch (str "https://ex.org/") (str "https://other.org/x")
    (by decide) (by decide) (by decide) _ _ rfl

/-! ### C5: pagination merge -/

theorem chainFrom_eq (fetch : Str → Option Feed) (base : Str) (cur : Feed) (rest : List Feed)
    (after : Option Str) :
    chainFrom fetch base cur rest after =
      (match nextLink cur with
       | none => rest.isEmpty && decide (after = none)
       | some l =>
         match rest with
         | [] => decide (after = some (resolveURL base l.href))
         | f :: rest' =>
           decide (fetch (resolveURL base l.href) = some f) && chainFrom fetch base f rest' after) := by
  rw [chainFrom]

theorem fetchLoop_all (fetch : Str → Option Feed) (base : Str) :
    ∀ (rest : List Feed) (acc cur : Feed) (pc fuel : Nat),
    chainFrom fetch base cur rest none = true → rest.length + 1 ≤ fuel →
    fetchLoop fetch base acc cur pc 0 fuel =
      some ({ acc with entries := acc.entries ++ rest.flatMap Feed.entries }, false, []) := by
  intro rest
  induction rest with
  | nil =>
    intro acc cur pc fuel hc hf
    rw [chainFrom_eq] at hc
    match fuel, hf with
    | fl + 1, _ =>
      cases hnl : nextLink cur with
      | none =>
        rw [fetchLoop, hnl]
        simp
      | some l =>
        rw [hnl] at hc
        simp at hc
  | cons f rest' ih =>
    intro acc cur pc fuel hc hf
    rw [chainFrom_eq] at hc
    cases hnl : nextLink cur with
    | none => rw [hnl] at hc; simp at hc
    | some l =>
      rw [hnl] at hc
      rw [Bool.and_eq_true, decide_eq_true_eq] at hc
      match fuel, hf with
      | fl + 1, hf =>
        rw [fetchLoop, hnl]
        dsimp only
        rw [if_neg (by omega), hc.1]
        dsimp only
        rw [ih _ f (pc + 1) fl hc.2 (by simp at hf; omega)]
        simp

theorem fetchLoop_limit (fetch : Str → Option Feed) (base : Str) :
    ∀ (rest : List Feed) (acc cur : Feed) (pc m fuel : Nat) (u' : Str),
    chainFrom fetch base cur rest (some u') = true → 0 < m → pc + rest.length = m →
    rest.length + 1 ≤ fuel →
    fetchLoop fetch base acc cur pc m fuel =
      some ({ acc with entries := acc.entries ++ rest.flatMap Feed.entries }, true, u') := by
  intro rest
  induction rest with
  | nil =>
    intro acc cur pc m fuel u' hc hm hpc hf
    rw [chainFrom_eq] at hc
    cases hnl : nextLink cur with
    | none => rw [hnl] at hc; simp at hc
    | some l =>
      rw [hnl, decide_eq_true_eq] at hc
      match fuel, hf with
      | fl + 1, _ =>
        rw [fetchLoop, hnl]
        dsimp only
        rw [if_pos (by simp at hpc; omega)]
        rw [Option.some.injEq] at hc
        simp [hc]
  | cons f rest' ih =>
    intro acc cur pc m fuel u' hc hm hpc hf
    rw [chainFrom_eq] at hc
    cases hnl : nextLink cur with
    | none => rw [hnl] at hc; simp at hc
    | some l =>
      rw [hnl, Bool.and_eq_true, decide_eq_true_eq] at hc
      match fuel, hf with
      | fl + 1, hf =>
        rw [fetchLoop, hnl]
        dsimp only
        rw [if_neg (by simp at hpc; omega), hc.1]
        dsimp only
        rw [ih _ f (pc + 1) m fl u' hc.2 hm (by simp at hpc ⊢; omega) (by simp at hf; omega)]
        simp

theorem fetchLoop_broken (fetch : Str → Option Feed) (base : Str) :
    ∀ (rest : List Feed) (acc cur : Feed) (pc fuel : Nat) (u' : Str),
    chainFrom fetch base cur rest (some u') = true → fetch u' = none →
    rest.length + 1 ≤ fuel →
    fetchLoop fetch base acc cur pc 0 fuel =
      some ({ acc with entries := acc.entries ++ rest.flatMap Feed.entries }, false, []) := by
  intro rest
  induction rest with
  | nil =>
    intro acc cur pc fuel u' hc hfail hf
    rw [chainFrom_eq] at hc
    cases hnl : nextLink cur with
    | none => rw [hnl] at hc; simp at hc
    | some l =>
      rw [hnl, decide_eq_true_eq, Option.some.injEq] at hc
      match fuel, hf with
      | fl + 1, _ =>
        rw [fetchLoop, hnl]
        dsimp only
        rw [if_neg (by omega), ← hc, hfail]
        simp
  | cons f rest' ih =>
    intro acc cur pc fuel u' hc hfail hf
    rw [chainFrom_eq] at hc
    cases hnl : nextLink cur with
    | none => rw [hnl] at hc; simp at hc
    | some l =>
      rw [hnl, Bool.and_eq_true, decide_eq_true_eq] at hc
      match fuel, hf with
      | fl + 1, hf =>
        rw [fetchLoop, hnl]
        dsimp only
        rw [if_neg (by omega), hc.1]
        dsimp only
        rw [ih _ f (pc + 1) fl u' hc.2 hfail (by simp at hf; omega)]
        simp

/-- C5: `FetchWithLimit` with maxPages = 0 follows the whole next-chain
    and returns the first page's feed with the concatenation of all pages'
    entries in page order, hasMore = false; with a positive maxPages equal
    to the number of pages seen while a next link remains, it returns the
    accumulated entries, hasMore = true and the unconsumed next URL (so
    maxPages = 1 returns only page 1's entries); and a page-fetch failure
    mid-sequence ends pagination, returning what was merged so far rather
    than an error. -/
theorem C5_pagination_merge
    (fetch : Str → Option Feed) (feedURL : Str) (f0 : Feed) (rest : List Feed)
    (u' : Str) (m fuel : Nat) :
    (fetch feedURL = some f0 → chainFrom fetch feedURL f0 rest none = true →
      rest.length + 1 ≤ fuel →
      fetchWithLimit fetch feedURL 0 fuel =
        some ({ f0 with entries := (f0 :: rest).flatMap Feed.entries }, false, [])) ∧
    (fetch feedURL = some f0 → chainFrom fetch feedURL f0 rest (some u') = true →
      0 < m → rest.length + 1 = m → rest.length + 1 ≤ fuel →
      fetchWithLimit fetch feedURL m fuel =
        some ({ f0 with entries := (f0 :: rest).flatMap Feed.entries }, true, u')) ∧
    (fetch feedURL = some f0 → chainFrom fetch feedURL f0 rest (some u') = true →
      fetch u' = none → rest.length + 1 ≤ fuel →
      fetchWithLimit fetch feedURL 0 fuel =
        some ({ f0 with entries := (f0 :: rest).flatMap Feed.entries }, false, [])) := by
  refine ⟨?_, ?_, ?_⟩
  · intro h0 hc hf
    rw [fetchWithLimit, h0]
    dsimp only
    rw [fetchLoop_all fetch feedURL rest f0 f0 1 fuel hc hf]
    simp
  · intro h0 hc hm hlen hf
    rw [fetchWithLimit, h0]
    dsimp only
    rw [fetchLoop_limit fetch feedURL rest f0 f0 1 m fuel u' hc hm (by omega) hf]
    simp
  · intro h0 hc hfail hf
    rw [fetchWithLimit, h0]
    dsimp only
    rw [fetchLoop_broken fetch feedURL rest f0 f0 1 fuel u' hc hfail hf]
    simp

/-- C5 witness: a three-page chain — unlimited fetch merges all three
    pages, maxPages = 1 stops after page 1 with the page-2 URL, and a
    missing page 2 ends pagination with page 1's entries. -/
theorem C5_witness :
    fetchWithLimit
      (fun u => if u = str "http://h/p1"
          then some ⟨str "p1", [], [], [⟨RelNext, str "http://h/p2", []⟩], [⟨str "e1", [], []⟩]⟩
        else if u = str "http://h/p2"
          then some ⟨str "p2", [], [], [⟨RelNext, str "http://h/p3", []⟩], [⟨str "e2", [], []⟩]⟩
        else if u = str "http://h/p3"
          then some ⟨str "p3", [], [], [], [⟨str "e3", [], []⟩]⟩
        else none)
      (str "http://h/p1") 0 10 =
      some ({ (⟨str "p1", [], [], [⟨RelNext, str "http://h/p2", []⟩], [⟨str "e1", [], []⟩]⟩ : Feed) with
          entries := ((⟨str "p1", [], [], [⟨RelNext, str "http://h/p2", []⟩], [⟨str "e1", [], []⟩]⟩ : Feed) ::
            [(⟨str "p2", [], [], [⟨RelNext, str "http://h/p3", []⟩], [⟨str "e2", [], []⟩]⟩ : Feed),
             (⟨str "p3", [], [], [], [⟨str "e3", [], []⟩]⟩ : Feed)]).flatMap Feed.entries },
        false, []) ∧
    fetchWithLimit
      (fun u => if u = str "http://h/p1"
          then some ⟨str "p1", [], [], [⟨RelNext, str "http://h/p2", []⟩], [⟨str "e1", [], []⟩]⟩
        else if u = str "http://h/p2"
          then some ⟨str "p2", [], [], [⟨RelNext, str "http://h/p3", []⟩], [⟨str "e2", [], []⟩]⟩
        else if u = str "http://h/p3"
          then some ⟨str "p3", [], [], [], [⟨str "e3", [], []⟩]⟩
        else none)
      (str "http://h/p1") 1 10 =
      some ({ (⟨str "p1", [], [], [⟨RelNext, str "http://h/p2", []⟩], [⟨str "e1", [], []⟩]⟩ : Feed) with
          entries := ((⟨str "p1", [], [], [⟨RelNext, str "http://h/p2", []⟩], [⟨str "e1", [], []⟩]⟩ : Feed) ::
            ([] : List Feed)).flatMap Feed.entries },
        true, str "http://h/p2") ∧
    fetchWithLimit
      (fun u => if u = str "http://h/p1"
          then some ⟨str "p1", [], [], [⟨RelNext, str "http://h/p2", []⟩], [⟨str "e1", [], []⟩]⟩
        else none)
      (str "http://h/p1") 0 10 =
      some ({ (⟨str "p1", [], [], [⟨RelNext, str "http://h/p2", []⟩], [⟨str "e1", [], []⟩]⟩ : Feed) with
          entries := ((⟨str "p1", [], [], [⟨RelNext, str "http://h/p2", []⟩], [⟨str "e1", [], []⟩]⟩ : Feed) ::
            ([] : List Feed)).flatMap Feed.entries },
        false, []) := by
  refine ⟨?_, ?_, ?_⟩
  · exact (C5_pagination_merge _ _ _ _ [] 0 10).1 rfl (by decide) (by decide)
  · exact (C5_pagination_merge _ _ _ [] _ 1 10).2.1 rfl (by decide) (by decide) (by decide) (by decide)
  · exact (C5_pagination_merge _ _ _ [] (str "http://h/p2") 0 10).2.2 rfl (by decide) (by decide) (by decide)

/-! ### C8: error atomicity of the request resolver -/

theorem resolveFeed_none_tree (fetch : Str → Option Feed) (tree : FeedTree) (sp q : Str) :
    (resolveFeed fetch tree sp q).1 = none → (resolveFeed fetch tree sp q).2.1 = tree := by
  simp only [resolveFeed]
  split
  · simp
  · split
    · simp
    · split
      · split
        · simp
        · split <;> simp
      · split <;> simp

theorem handleSource_cold_fail (fetch : Str → Option Feed) (sp q : Str) :
    handleSource none fetch none sp q = (none, Status.badGateway) := rfl

theorem handleSource_warm_notFound (crawlRes : Option FeedTree) (fetch : Str → Option Feed)
    (tree : FeedTree) (sp q : Str) (h : (resolveFeed fetch tree sp q).1 = none) :
    handleSource crawlRes fetch (some tree) sp q = (some tree, Status.notFound) := by
  rw [handleSource]
  rw [h]
  dsimp only
  rw [resolveFeed_none_tree fetch tree sp q h]

/-- C8: the claim as stated — every failed on-demand fetch surfaces as an
    upstream-fetch (bad-gateway) error — is false: a failed sub-path fetch
    is served as a not-found response.  At this input the resolver's fetch
    fails, the tree is unchanged, and the handler answers `notFound`, not
    `badGateway`. -/
theorem C8_counterexample :
    handleSource none (fun _ => none)
      (some (FeedTree.mk (Feed.mk [] [] [] [] []) (str "http://h/cat") [] []))
      (str "books") [] =
      (some (FeedTree.mk (Feed.mk [] [] [] [] []) (str "http://h/cat") [] []),
        Status.notFound) ∧
    Status.notFound ≠ Status.badGateway :=
  ⟨rfl, by decide⟩

/-- C8 (amended): the resolver is atomic on error — whenever the on-demand
    fetch fails the served feed is `nil` and the tree is returned exactly
    as it was, with no child inserted; a cold-start crawl failure leaves
    the cache empty and surfaces as a bad-gateway error, while a failed
    ext or sub-path fetch on a cached tree leaves the cache entry exactly
    as it was and surfaces as a not-found response. -/
theorem C8_resolver_error_atomic :
    (∀ (fetch : Str → Option Feed) (tree : FeedTree) (sp q : Str),
      (resolveFeed fetch tree sp q).1 = none → (resolveFeed fetch tree sp q).2.1 = tree) ∧
    (∀ (fetch : Str → Option Feed) (sp q : Str),
      handleSource none fetch none sp q = (none, Status.badGateway)) ∧
    (∀ (crawlRes : Option FeedTree) (fetch : Str → Option Feed) (tree : FeedTree) (sp q : Str),
      (resolveFeed fetch tree sp q).1 = none →
      handleSource crawlRes fetch (some tree) sp q = (some tree, Status.notFound)) :=
  ⟨resolveFeed_none_tree, handleSource_cold_fail, handleSource_warm_notFound⟩

/-- C8 witness: with an always-failing fetch oracle, a sub-path request
    leaves the cached tree untouched, a cold request leaves the cache
    empty with a bad-gateway error, and a warm request answers not-found
    with the entry unchanged. -/
theorem C8_witness :
    (resolveFeed (fun _ => none)
      (FeedTree.mk (Feed.mk [] [] [] [] []) (str "http://h/cat") [] [])
      (str "books") []).2.1 =
      FeedTree.mk (Feed.mk [] [] [] [] []) (str "http://h/cat") [] [] ∧
    handleSource none (fun _ => none) none (str "books") [] = (none, Status.badGateway) ∧
    handleSource none (fun _ => none)
      (some (FeedTree.mk (Feed.mk [] [] [] [] []) (str "http://h/cat") [] []))
      (str "books") [] =
      (some (FeedTree.mk (Feed.mk [] [] [] [] []) (str "http://h/cat") [] []),
        Status.notFound) :=
  ⟨C8_resolver_error_atomic.1 _ _ _ _ rfl, C8_resolver_error_atomic.2.1 _ _ _,
    C8_resolver_error_atomic.2.2 none _ _ _ _ rfl⟩

/-! ### C9: pagination parameters stripped before caching and fetching -/

theorem stripPagination_pairs {q : Str} {ps : List (Str × Str)}
    (hq : ∀ c ∈ q, c.toNat < 256) (hp : parseQuery q = some ps) :
    parseQuery (stripPaginationParams q) =
      some (sortPairs (valsDel (valsDel ps (str "offset")) (str "limit"))) := by
  by_cases hqe : q = []
  · subst hqe
    rw [show parseQuery [] = some [] from rfl, Option.some.injEq] at hp
    subst hp
    rfl
  · rw [stripPaginationParams, if_neg hqe, hp]
    apply parseQuery_valsEncode
    intro p hpm
    have h1 : p ∈ valsDel ps (str "offset") := (List.mem_filter.mp hpm).1
    exact parseQuery_bytes hq hp p (List.mem_filter.mp h1).1

/-- C9: the claim as stated — pagination parameters are never forwarded
    to the upstream fetch — is false: `stripPaginationParams` returns the
    raw query unchanged whenever `url.ParseQuery` errors, so for the
    reachable browse query `offset=1&x=%zz` (bad percent-escape) the
    `offset` parameter survives into both the child cache key and the
    reconstructed upstream fetch URL. -/
theorem C9_counterexample :
    parseQuery (str "offset=1&x=%zz") = none ∧
    stripPaginationParams (str "offset=1&x=%zz") = str "offset=1&x=%zz" ∧
    containsSub (str "offset=1&x=%zz") (str "offset=") = true ∧
    (resolveFeed (fun _ => some (Feed.mk [] [] [] [] []))
      (FeedTree.mk (Feed.mk [] [] [] [] []) (str "http://h/cat") [] [])
      (str "books") (str "offset=1&x=%zz")).2.2 =
      [str "http://h/cat/books?offset=1&x=%zz"] ∧
    (resolveFeed (fun _ => some (Feed.mk [] [] [] [] []))
      (FeedTree.mk (Feed.mk [] [] [] [] []) (str "http://h/cat") [] [])
      (str "books") (str "offset=1&x=%zz")).2.1 =
      insertChild (FeedTree.mk (Feed.mk [] [] [] [] []) (str "http://h/cat") [] [])
        (str "books?offset=1&x=%zz")
        (FeedTree.mk (Feed.mk [] [] [] [] [])
          (str "http://h/cat/books?offset=1&x=%zz") [] []) :=
  ⟨by decide, rfl, by decide, rfl, rfl⟩

/-- C9 (amended): for every browse query that `url.ParseQuery` accepts,
    `stripPaginationParams` removes exactly the `offset` and `limit`
    parameters — the cleaned query parses back to the other parameters (in
    Go's `Encode` order: stable-sorted by key), none of which is `offset`
    or `limit` — and the resolver bases both the child cache key and the
    reconstructed upstream fetch URL on the cleaned query; but when
    `url.ParseQuery` rejects the query, the raw query is passed through
    unchanged, so any pagination parameters it carries do reach the cache
    key and the upstream fetch URL. -/
theorem C9_pagination_params_stripped :
    (∀ (q : Str) (ps : List (Str × Str)), (∀ c ∈ q, c.toNat < 256) → parseQuery q = some ps →
      parseQuery (stripPaginationParams q) =
        some (sortPairs (valsDel (valsDel ps (str "offset")) (str "limit"))) ∧
      ∀ p ∈ sortPairs (valsDel (valsDel ps (str "offset")) (str "limit")),
        p.1 ≠ str "offset" ∧ p.1 ≠ str "limit") ∧
    (∀ (fetch : Str → Option Feed) (tree : FeedTree) (subPath rawQuery sp clean cacheKey : Str),
      sp = trimTrailing (trimLeading subPath (str "/")) (str "/") →
      clean = stripPaginationParams rawQuery →
      cacheKey = (if clean ≠ [] then sp ++ '?' :: clean else sp) →
      ¬(sp = [] ∧ clean = []) → lookupChild tree cacheKey = none → sp ≠ str "ext" →
      (resolveFeed fetch tree subPath rawQuery).2.2 = [joinURL tree.url sp clean] ∧
      ∀ f, fetch (joinURL tree.url sp clean) = some f →
        (resolveFeed fetch tree subPath rawQuery).2.1 =
          insertChild tree cacheKey (FeedTree.mk f (joinURL tree.url sp clean) [] [])) ∧
    (∀ q : Str, parseQuery q = none → stripPaginationParams q = q) := by
  refine ⟨?_, ?_, ?_⟩
  · intro q ps hq hp
    refine ⟨stripPagination_pairs hq hp, ?_⟩
    intro p hpm
    have h1 := mem_sortPairs.mp hpm
    have h2 := List.mem_filter.mp h1
    have h3 := List.mem_filter.mp h2.1
    constructor
    · simpa using h3.2
    · simpa using h2.2
  · intro fetch tree subPath rawQuery sp clean cacheKey hsp hclean hkey hroot hmiss hext
    subst hsp hclean hkey
    simp only [resolveFeed]
    rw [if_neg hroot, hmiss, if_neg hext]
    dsimp only
    cases hf : fetch (joinURL tree.url (trimTrailing (trimLeading subPath (str "/")) (str "/"))
        (stripPaginationParams rawQuery)) with
    | none =>
      refine ⟨by simp, ?_⟩
      intro f hff
      cases hff
    | some f0 =>
      refine ⟨by simp, ?_⟩
      intro f hff
      rw [Option.some.injEq] at hff
      subst hff
      simp
  · intro q hq
    by_cases hqe : q = []
    · subst hqe
      rfl
    · rw [stripPaginationParams, if_neg hqe, hq]

/-- C9 witness: `x=1&offset=2&limit=3&y=4` is cleaned to exactly the `x`
    and `y` parameters; a browse of sub-path `books` with query
    `a=1&offset=2` fetches the upstream URL built from the cleaned query
    `a=1` only; and the unparsable query `a=%zz` is passed through
    unchanged. -/
theorem C9_witness :
    (parseQuery (stripPaginationParams (str "x=1&offset=2&limit=3&y=4")) =
      some (sortPairs (valsDel (valsDel
        [(str "x", str "1"), (str "offset", str "2"), (str "limit", str "3"), (str "y", str "4")]
        (str "offset")) (str "limit"))) ∧
      ∀ p ∈ sortPairs (valsDel (valsDel
        [(str "x", str "1"), (str "offset", str "2"), (str "limit", str "3"), (str "y", str "4")]
        (str "offset")) (str "limit")),
        p.1 ≠ str "offset" ∧ p.1 ≠ str "limit") ∧
    (resolveFeed (fun _ => none)
      (FeedTree.mk (Feed.mk [] [] [] [] []) (str "http://h/cat") [] [])
      (str "books") (str "a=1&offset=2")).2.2 =
      [joinURL (FeedTree.mk (Feed.mk [] [] [] [] []) (str "http://h/cat") [] []).url
        (str "books") (str "a=1")] ∧
    stripPaginationParams (str "a=%zz") = str "a=%zz" :=
  ⟨C9_pagination_params_stripped.1 (str "x=1&offset=2&limit=3&y=4")
      [(str "x", str "1"), (str "offset", str "2"), (str "limit", str "3"), (str "y", str "4")]
      (by decide) (by decide),
   (C9_pagination_params_stripped.2.1 (fun _ => none)
      (FeedTree.mk (Feed.mk [] [] [] [] []) (str "http://h/cat") [] [])
      (str "books") (str "a=1&offset=2") (str "books") (str "a=1") (str "books?a=1")
      (by decide) (by decide) (by decide) (by decide) rfl (by decide)).1,
   C9_pagination_params_stripped.2.2 (str "a=%zz") (by decide)⟩

/-! ### C10: the rewriter does not mutate the cached feed -/

theorem lookupL_zero (h : Heap) (hwf : heapWF h) : lookupL h 0 = none := by
  rw [lookupL]
  rw [List.find?_eq_none.mpr]
  intro p hp
  have := (hwf.2.1 p hp).2
  simp
  omega

theorem lookupL_congr (h1 h2 : Heap) (r : Nat) (he : h1.linkSlices = h2.linkSlices) :
    lookupL h1 r = lookupL h2 r := by
  rw [lookupL, lookupL, he]

theorem lookupE_congr (h1 h2 : Heap) (r : Nat) (he : h1.entrySlices = h2.entrySlices) :
    lookupE h1 r = lookupE h2 r := by
  rw [lookupE, lookupE, he]

theorem readL_congr (h1 h2 : Heap) (r : Nat) (he : lookupL h1 r = lookupL h2 r) :
    readL h1 r = readL h2 r := by
  rw [readL, readL, he]

theorem readE_congr (h1 h2 : Heap) (r : Nat) (he : lookupE h1 r = lookupE h2 r) :
    readE h1 r = readE h2 r := by
  rw [readE, readE, he]

theorem lookupL_allocL (h : Heap) (ls : List Link) (r : Nat) (hr : r ≠ h.nextRef) :
    lookupL (allocL h ls).1 r = lookupL h r := by
  rw [lookupL, allocL]
  rw [List.find?_cons_of_neg]
  · rfl
  · simp
    omega

theorem lookupE_allocE (h : Heap) (es : List HEntry) (r : Nat) (hr : r ≠ h.nextRef) :
    lookupE (allocE h es).1 r = lookupE h r := by
  rw [lookupE, allocE]
  rw [List.find?_cons_of_neg]
  · rfl
  · simp
    omega

theorem lookupL_allocE (h : Heap) (es : List HEntry) (r : Nat) :
    lookupL (allocE h es).1 r = lookupL h r := rfl

theorem lookupE_allocL (h : Heap) (ls : List Link) (r : Nat) :
    lookupE (allocL h ls).1 r = lookupE h r := rfl

theorem lookupL_allocL_self (h : Heap) (ls : List Link) :
    lookupL (allocL h ls).1 (allocL h ls).2 = some ls := by
  rw [lookupL, allocL]
  rw [List.find?_cons_of_pos]
  simp

theorem lookupE_allocE_self (h : Heap) (es : List HEntry) :
    lookupE (allocE h es).1 (allocE h es).2 = some es := by
  rw [lookupE, allocE]
  rw [List.find?_cons_of_pos]
  simp

theorem heapWF_allocL (h : Heap) (ls : List Link) (hwf : heapWF h) :
    heapWF (allocL h ls).1 := by
  obtain ⟨h1, h2, h3⟩ := hwf
  refine ⟨?_, ?_, ?_⟩
  · show 1 ≤ h.nextRef + 1
    omega
  · intro p hp
    have hp' : p = (h.nextRef, ls) ∨ p ∈ h.linkSlices := by
      simpa [allocL] using hp
    show p.1 < h.nextRef + 1 ∧ 1 ≤ p.1
    rcases hp' with hp' | hp'
    · subst hp'
      exact ⟨by omega, h1⟩
    · have := h2 p hp'
      omega
  · intro p hp
    have hp' : p ∈ h.entrySlices := hp
    have := h3 p hp'
    show p.1 < h.nextRef + 1 ∧ 1 ≤ p.1
    omega

theorem heapWF_allocE (h : Heap) (es : List HEntry) (hwf : heapWF h) :
    heapWF (allocE h es).1 := by
  obtain ⟨h1, h2, h3⟩ := hwf
  refine ⟨?_, ?_, ?_⟩
  · show 1 ≤ h.nextRef + 1
    omega
  · intro p hp
    have hp' : p ∈ h.linkSlices := hp
    have := h2 p hp'
    show p.1 < h.nextRef + 1 ∧ 1 ≤ p.1
    omega
  · intro p hp
    have hp' : p = (h.nextRef, es) ∨ p ∈ h.entrySlices := by
      simpa [allocE] using hp
    show p.1 < h.nextRef + 1 ∧ 1 ≤ p.1
    rcases hp' with hp' | hp'
    · subst hp'
      exact ⟨by omega, h1⟩
    · have := h3 p hp'
      omega

theorem rewriteLinksH_spec (h : Heap) (r : Nat) (a b c d : Str) (hwf : heapWF h) :
    heapWF (rewriteLinksH h r a b c d).1 ∧
    h.nextRef ≤ (rewriteLinksH h r a b c d).1.nextRef ∧
    (rewriteLinksH h r a b c d).1.entrySlices = h.entrySlices ∧
    (∀ s, s < h.nextRef → lookupL (rewriteLinksH h r a b c d).1 s = lookupL h s) ∧
    (rewriteLinksH h r a b c d).2 < (rewriteLinksH h r a b c d).1.nextRef ∧
    ((rewriteLinksH h r a b c d).2 = 0 ∨ (rewriteLinksH h r a b c d).2 = h.nextRef) ∧
    readL (rewriteLinksH h r a b c d).1 (rewriteLinksH h r a b c d).2 =
      (readL h r).map (rwLink a b c d) := by
  simp only [rewriteLinksH]
  by_cases he : (readL h r).isEmpty
  · rw [if_pos he]
    rw [List.isEmpty_iff] at he
    refine ⟨hwf, le_refl _, rfl, fun s _ => rfl, hwf.1, Or.inl rfl, ?_⟩
    rw [he, readL, lookupL_zero h hwf]
    rfl
  · rw [if_neg he]
    refine ⟨heapWF_allocL h _ hwf, ?_, rfl, ?_, ?_, Or.inr rfl, ?_⟩
    · show h.nextRef ≤ h.nextRef + 1
      omega
    · intro s hs
      exact lookupL_allocL h _ s (by omega)
    · show h.nextRef < h.nextRef + 1
      omega
    · rw [readL, lookupL_allocL_self]
      rfl

theorem rwEntryLoop_inv (a b c d : Str) (h0 : Heap) (es : List HEntry) :
    ∀ (accH : Heap) (accL : List HEntry),
    heapWF accH → h0.nextRef ≤ accH.nextRef →
    (∀ e ∈ es, e.links < h0.nextRef) →
    (∀ s, s < h0.nextRef → lookupL accH s = lookupL h0 s) →
    heapWF (es.foldl (rwEntryStep a b c d) (accH, accL)).1 ∧
    accH.nextRef ≤ (es.foldl (rwEntryStep a b c d) (accH, accL)).1.nextRef ∧
    (es.foldl (rwEntryStep a b c d) (accH, accL)).1.entrySlices = accH.entrySlices ∧
    (∀ s, s < accH.nextRef →
      lookupL (es.foldl (rwEntryStep a b c d) (accH, accL)).1 s = lookupL accH s) ∧
    ∃ out, (es.foldl (rwEntryStep a b c d) (accH, accL)).2 = accL ++ out ∧
      List.Forall₂ (fun e e' => e'.id = e.id ∧ e'.title = e.title ∧
        readL (es.foldl (rwEntryStep a b c d) (accH, accL)).1 e'.links =
          (readL h0 e.links).map (rwLink a b c d)) es out := by
  induction es with
  | nil =>
    intro accH accL hwf _ _ _
    exact ⟨hwf, le_refl _, rfl, fun s _ => rfl, [], by simp, List.Forall₂.nil⟩
  | cons e es ih =>
    intro accH accL hwf hm hes hfr
    rw [List.foldl_cons]
    have hspec := rewriteLinksH_spec accH e.links a b c d hwf
    obtain ⟨hwf1, hm1, hE1, hfr1, hlt1, _, hrd1⟩ := hspec
    have hstep : rwEntryStep a b c d (accH, accL) e =
        ((rewriteLinksH accH e.links a b c d).1,
          accL ++ [{ e with links := (rewriteLinksH accH e.links a b c d).2 }]) := rfl
    rw [hstep]
    have hm' : h0.nextRef ≤ (rewriteLinksH accH e.links a b c d).1.nextRef := le_trans hm hm1
    have hfr' : ∀ s, s < h0.nextRef →
        lookupL (rewriteLinksH accH e.links a b c d).1 s = lookupL h0 s := by
      intro s hs
      rw [hfr1 s (lt_of_lt_of_le hs hm), hfr s hs]
    have hih := ih (rewriteLinksH accH e.links a b c d).1
      (accL ++ [{ e with links := (rewriteLinksH accH e.links a b c d).2 }])
      hwf1 hm' (fun e' he' => hes e' (List.mem_cons_of_mem e he')) hfr'
    obtain ⟨hwf2, hm2, hE2, hfr2, out', hout', hfa'⟩ := hih
    refine ⟨hwf2, le_trans hm1 hm2, by rw [hE2, hE1], ?_, ?_⟩
    · intro s hs
      rw [hfr2 s (lt_of_lt_of_le hs hm1), hfr1 s hs]
    · refine ⟨{ e with links := (rewriteLinksH accH e.links a b c d).2 } :: out', ?_, ?_⟩
      · rw [hout']
        simp
      · refine List.Forall₂.cons ⟨rfl, rfl, ?_⟩ hfa'
        have hrdfin := readL_congr _ _
          (rewriteLinksH accH e.links a b c d).2 (hfr2 _ hlt1)
        rw [hrdfin, hrd1]
        have hback : readL accH e.links = readL h0 e.links :=
          readL_congr _ _ _ (hfr e.links (hes e (List.mem_cons_self e es)))
        rw [hback]

/-- C10: `rewriteFeedLinks` never mutates its input — on a well-formed
    heap and a feed whose slice references are valid, every slice allocated
    before the call reads back unchanged afterwards (in particular the
    feed's link slice, its entry slice, and every entry's link slice are
    byte-for-byte intact), while the returned feed carries fresh link and
    entry slices whose hrefs are the rewritten copies of the input's, with
    all other fields copied. -/
theorem C10_rewrite_no_mutation (h : Heap) (feed : HFeed) (a b c d : Str)
    (hwf : heapWF h) (hok : feedRefsOK h feed) :
    (∀ s, s < h.nextRef →
      lookupL (rewriteFeedLinksH h feed a b c d).1 s = lookupL h s ∧
      lookupE (rewriteFeedLinksH h feed a b c d).1 s = lookupE h s) ∧
    readL (rewriteFeedLinksH h feed a b c d).1 feed.links = readL h feed.links ∧
    readE (rewriteFeedLinksH h feed a b c d).1 feed.entries = readE h feed.entries ∧
    (∀ e ∈ readE h feed.entries,
      readL (rewriteFeedLinksH h feed a b c d).1 e.links = readL h e.links) ∧
    ((rewriteFeedLinksH h feed a b c d).2.links = 0 ∨
      h.nextRef ≤ (rewriteFeedLinksH h feed a b c d).2.links) ∧
    h.nextRef ≤ (rewriteFeedLinksH h feed a b c d).2.entries ∧
    readL (rewriteFeedLinksH h feed a b c d).1 (rewriteFeedLinksH h feed a b c d).2.links =
      (readL h feed.links).map (rwLink a b c d) ∧
    List.Forall₂ (fun e e' => e'.id = e.id ∧ e'.title = e.title ∧
        readL (rewriteFeedLinksH h feed a b c d).1 e'.links =
          (readL h e.links).map (rwLink a b c d))
      (readE h feed.entries)
      (readE (rewriteFeedLinksH h feed a b c d).1 (rewriteFeedLinksH h feed a b c d).2.entries) ∧
    (rewriteFeedLinksH h feed a b c d).2.id = feed.id ∧
    (rewriteFeedLinksH h feed a b c d).2.title = feed.title := by
  obtain ⟨hfl, hfe, hel⟩ := hok
  have hspec1 := rewriteLinksH_spec h feed.links a b c d hwf
  obtain ⟨hwf1, hm1, hE1, hfr1, hlt1, hfresh1, hrd1⟩ := hspec1
  have hre : readE (rewriteLinksH h feed.links a b c d).1 feed.entries =
      readE h feed.entries := readE_congr _ _ _ (lookupE_congr _ _ _ hE1)
  have hinv := rwEntryLoop_inv a b c d h (readE h feed.entries)
    (rewriteLinksH h feed.links a b c d).1 [] hwf1 hm1 hel hfr1
  obtain ⟨hwf2, hm2, hE2, hfr2, out, hout, hfa⟩ := hinv
  simp only [rewriteFeedLinksH, hre]
  set r1 := rewriteLinksH h feed.links a b c d with hr1def
  set F := List.foldl (rwEntryStep a b c d) (r1.1, []) (readE h feed.entries) with hFdef
  have hLfin : ∀ s, lookupL (allocE F.1 F.2).1 s = lookupL F.1 s :=
    fun s => lookupL_allocE F.1 F.2 s
  have hLpres : ∀ s, s < h.nextRef → lookupL (allocE F.1 F.2).1 s = lookupL h s := by
    intro s hs
    rw [hLfin, hfr2 s (by omega), hfr1 s hs]
  have hEpres : ∀ s, s < h.nextRef → lookupE (allocE F.1 F.2).1 s = lookupE h s := by
    intro s hs
    rw [lookupE_allocE F.1 F.2 s (by omega)]
    exact lookupE_congr _ _ _ (by rw [hE2, hE1])
  have hEfin : readE (allocE F.1 F.2).1 (allocE F.1 F.2).2 = F.2 := by
    rw [readE, lookupE_allocE_self]
    rfl
  refine ⟨fun s hs => ⟨hLpres s hs, hEpres s hs⟩,
    readL_congr _ _ _ (hLpres _ hfl),
    readE_congr _ _ _ (hEpres _ hfe),
    fun e he => readL_congr _ _ _ (hLpres _ (hel e he)), ?_, ?_, ?_, ?_, by trivial, by trivial⟩
  · rcases hfresh1 with hz | hn
    · exact Or.inl hz
    · exact Or.inr (le_of_eq hn.symm)
  · show h.nextRef ≤ F.1.nextRef
    omega
  · calc readL (allocE F.1 F.2).1 r1.2 = readL F.1 r1.2 := readL_congr _ _ _ (hLfin _)
      _ = readL r1.1 r1.2 := readL_congr _ _ _ (hfr2 _ hlt1)
      _ = (readL h feed.links).map (rwLink a b c d) := hrd1
  · have hEfin2 : readE (allocE F.1 F.2).1 (allocE F.1 F.2).2 = out := by
      rw [hEfin, hout, List.nil_append]
    rw [hEfin2]
    refine List.Forall₂.imp ?_ hfa
    intro e e' hr
    refine ⟨hr.1, hr.2.1, ?_⟩
    rw [readL_congr _ _ _ (hLfin _)]
    exact hr.2.2

/-- C10 witness: on the concrete heap `heapC10`, rewriting `feedC10`
    leaves slices 1, 2 and 3 — the feed's links, the entry's links and the
    entry list — reading exactly as before. -/
theorem C10_witness :
    readL (rewriteFeedLinksH heapC10 feedC10 (str "s") (str "http://u") (str "http://u") []).1
        1 = readL heapC10 1 ∧
    readE (rewriteFeedLinksH heapC10 feedC10 (str "s") (str "http://u") (str "http://u") []).1
        3 = readE heapC10 3 ∧
    readL (rewriteFeedLinksH heapC10 feedC10 (str "s") (str "http://u") (str "http://u") []).1
        2 = readL heapC10 2 := by
  have H := C10_rewrite_no_mutation heapC10 feedC10 (str "s") (str "http://u") (str "http://u")
    [] (by decide) (by decide)
  exact ⟨H.2.1, H.2.2.1, H.2.2.2.1 ⟨str "e1", str "E1", 2⟩ (by decide)⟩

/-! ### C4 and C6: crawl depth bound and partial-failure tolerance -/

theorem crawlChildren_eq (fetch : Str → Option Feed) (cfg : FeedConfig)
    (tree : FeedTree) (baseURL : Str) (depth : Nat) :
    crawlChildren fetch cfg tree baseURL depth =
      if depth > cfg.pollDepth then tree
      else crawlLoop fetch cfg (tree.feed.entries.flatMap Entry.links) tree baseURL depth := by
  rw [crawlChildren]

theorem crawlLoop_nil (fetch : Str → Option Feed) (cfg : FeedConfig)
    (tree : FeedTree) (baseURL : Str) (depth : Nat) :
    crawlLoop fetch cfg [] tree baseURL depth = tree := by
  rw [crawlLoop]

theorem crawlLoop_cons (fetch : Str → Option Feed) (cfg : FeedConfig)
    (link : Link) (rest : List Link) (tree : FeedTree) (baseURL : Str) (depth : Nat) :
    crawlLoop fetch cfg (link :: rest) tree baseURL depth =
      if isNavigationLink link = false then crawlLoop fetch cfg rest tree baseURL depth
      else
        match lookupChild tree (relativePath cfg.url (resolveURL baseURL link.href)) with
        | some _ => crawlLoop fetch cfg rest tree baseURL depth
        | none =>
          match fetch (resolveURL baseURL link.href) with
          | none => crawlLoop fetch cfg rest tree baseURL depth
          | some child =>
            crawlLoop fetch cfg rest
              (insertChild tree (relativePath cfg.url (resolveURL baseURL link.href))
                (if isNavigationFeed child then
                  if depth < cfg.pollDepth then
                    crawlChildren fetch cfg (.mk child (resolveURL baseURL link.href) [] [])
                      (resolveURL baseURL link.href) (depth + 1)
                  else .mk child (resolveURL baseURL link.href) [] []
                 else .mk child (resolveURL baseURL link.href) [] []))
              baseURL depth := by
  rw [crawlLoop]
  rfl

theorem FeedTree_feed_mk (f : Feed) (u : Str) (cs : List (Str × FeedTree)) (s : Str) :
    (FeedTree.mk f u cs s).feed = f := rfl

theorem levelsBelow_mk (f : Feed) (u : Str) (cs : List (Str × FeedTree)) (s : Str) :
    levelsBelow (.mk f u cs s) = levelsBelowList cs := by
  rw [levelsBelow]

theorem subOK_mk (f : Feed) (u : Str) (cs : List (Str × FeedTree)) (s : Str) :
    subOK (.mk f u cs s) = subOKList cs := by
  rw [subOK]

theorem levelsBelowList_append (cs : List (Str × FeedTree)) (k : Str) (c : FeedTree) :
    levelsBelowList (cs ++ [(k, c)]) = max (levelsBelowList cs) (1 + levelsBelow c) := by
  induction cs with
  | nil =>
    rw [List.nil_append, levelsBelowList, levelsBelowList, levelsBelowList]
    omega
  | cons p cs ih =>
    obtain ⟨k0, c0⟩ := p
    rw [List.cons_append, levelsBelowList, levelsBelowList, ih]
    omega

theorem levelsBelow_insertChild (t : FeedTree) (k : Str) (c : FeedTree) :
    levelsBelow (insertChild t k c) = max (levelsBelow t) (1 + levelsBelow c) := by
  obtain ⟨f, u, cs, s⟩ := t
  rw [insertChild]
  rw [levelsBelow_mk]
  rw [show (FeedTree.mk f u cs s).children = cs from rfl]
  rw [levelsBelowList_append, levelsBelow_mk]

theorem subOKList_append (cs : List (Str × FeedTree)) (k : Str) (c : FeedTree) :
    subOKList (cs ++ [(k, c)]) =
      (subOKList cs && ((c.children.isEmpty || isNavigationFeed c.feed) && subOK c)) := by
  induction cs with
  | nil =>
    rw [List.nil_append, subOKList, subOKList, subOKList]
    simp
  | cons p cs ih =>
    obtain ⟨k0, c0⟩ := p
    rw [List.cons_append, subOKList, subOKList, ih]
    simp [Bool.and_assoc]

theorem subOK_insertChild (t : FeedTree) (k : Str) (c : FeedTree) :
    subOK (insertChild t k c) =
      (subOK t && ((c.children.isEmpty || isNavigationFeed c.feed) && subOK c)) := by
  obtain ⟨f, u, cs, s⟩ := t
  rw [insertChild]
  rw [subOK_mk]
  rw [show (FeedTree.mk f u cs s).children = cs from rfl]
  rw [subOKList_append, subOK_mk]

theorem lookupChild_insertChild_self (t : FeedTree) (k : Str) (c : FeedTree) :
    lookupChild (insertChild t k c) k ≠ none := by
  rw [lookupChild, insertChild]
  rw [show (FeedTree.mk t.feed t.url (t.children ++ [(k, c)]) t.searchURL).children =
    t.children ++ [(k, c)] from rfl]
  rw [List.find?_append]
  cases hf : t.children.find? (fun p => decide (p.1 = k)) with
  | some p => simp [hf]
  | none => simp [hf]

theorem lookupChild_insertChild_mono (t : FeedTree) (k k' : Str) (c : FeedTree)
    (h : lookupChild t k' ≠ none) : lookupChild (insertChild t k c) k' ≠ none := by
  rw [lookupChild, insertChild]
  rw [show (FeedTree.mk t.feed t.url (t.children ++ [(k, c)]) t.searchURL).children =
    t.children ++ [(k, c)] from rfl]
  rw [List.find?_append]
  rw [lookupChild] at h
  cases hf : t.children.find? (fun p => decide (p.1 = k')) with
  | some p => simp [hf]
  | none =>
    rw [hf] at h
    simp at h

theorem crawl_invariant (fetch : Str → Option Feed) (cfg : FeedConfig) :
    ∀ n depth, cfg.pollDepth + 1 - depth ≤ n →
    (∀ tree baseURL,
      (crawlChildren fetch cfg tree baseURL depth).feed = tree.feed ∧
      (crawlChildren fetch cfg tree baseURL depth).url = tree.url ∧
      (crawlChildren fetch cfg tree baseURL depth).searchURL = tree.searchURL ∧
      levelsBelow (crawlChildren fetch cfg tree baseURL depth) ≤
        max (levelsBelow tree) (cfg.pollDepth + 1 - depth) ∧
      (subOK tree = true → subOK (crawlChildren fetch cfg tree baseURL depth) = true)) ∧
    (∀ links tree baseURL, depth ≤ cfg.pollDepth →
      (crawlLoop fetch cfg links tree baseURL depth).feed = tree.feed ∧
      (crawlLoop fetch cfg links tree baseURL depth).url = tree.url ∧
      (crawlLoop fetch cfg links tree baseURL depth).searchURL = tree.searchURL ∧
      levelsBelow (crawlLoop fetch cfg links tree baseURL depth) ≤
        max (levelsBelow tree) (cfg.pollDepth + 1 - depth) ∧
      (subOK tree = true → subOK (crawlLoop fetch cfg links tree baseURL depth) = true)) := by
  intro n
  induction n with
  | zero =>
    intro depth hle
    constructor
    · intro tree baseURL
      rw [crawlChildren_eq, if_pos (by omega)]
      exact ⟨rfl, rfl, rfl, le_max_left _ _, fun h => h⟩
    · intro links tree baseURL hd
      omega
  | succ n ihn =>
    intro depth hle
    have loopPart : ∀ links tree baseURL, depth ≤ cfg.pollDepth →
        (crawlLoop fetch cfg links tree baseURL depth).feed = tree.feed ∧
        (crawlLoop fetch cfg links tree baseURL depth).url = tree.url ∧
        (crawlLoop fetch cfg links tree baseURL depth).searchURL = tree.searchURL ∧
        levelsBelow (crawlLoop fetch cfg links tree baseURL depth) ≤
          max (levelsBelow tree) (cfg.pollDepth + 1 - depth) ∧
        (subOK tree = true → subOK (crawlLoop fetch cfg links tree baseURL depth) = true) := by
      intro links
      induction links with
      | nil =>
        intro tree baseURL hd
        rw [crawlLoop_nil]
        exact ⟨rfl, rfl, rfl, le_max_left _ _, fun h => h⟩
      | cons link rest ih =>
        intro tree baseURL hd
        rw [crawlLoop_cons]
        by_cases hnav : isNavigationLink link = false
        · rw [if_pos hnav]
          exact ih tree baseURL hd
        · rw [if_neg hnav]
          cases hlk : lookupChild tree (relativePath cfg.url (resolveURL baseURL link.href)) with
          | some c =>
            dsimp only
            exact ih tree baseURL hd
          | none =>
            dsimp only
            cases hf : fetch (resolveURL baseURL link.href) with
            | none =>
              dsimp only
              exact ih tree baseURL hd
            | some child =>
              dsimp only
              have hCT : ∀ (CT : FeedTree),
                  CT = (if isNavigationFeed child then
                    if depth < cfg.pollDepth then
                      crawlChildren fetch cfg (.mk child (resolveURL baseURL link.href) [] [])
                        (resolveURL baseURL link.href) (depth + 1)
                    else .mk child (resolveURL baseURL link.href) [] []
                   else .mk child (resolveURL baseURL link.href) [] []) →
                  ((CT.children.isEmpty || isNavigationFeed CT.feed) = true ∧
                   subOK CT = true ∧ levelsBelow CT ≤ cfg.pollDepth - depth) := by
                intro CT hCTdef
                by_cases hnavf : isNavigationFeed child = true
                · by_cases hdep : depth < cfg.pollDepth
                  · rw [if_pos hnavf, if_pos hdep] at hCTdef
                    have hihc := (ihn (depth + 1) (by omega)).1
                      (.mk child (resolveURL baseURL link.href) [] [])
                      (resolveURL baseURL link.href)
                    obtain ⟨hfe, _, _, hlev, hsub⟩ := hihc
                    subst hCTdef
                    refine ⟨?_, ?_, ?_⟩
                    · rw [hfe, FeedTree_feed_mk, hnavf]
                      simp
                    · exact hsub (by rw [subOK_mk, subOKList])
                    · calc levelsBelow _ ≤
                          max (levelsBelow (FeedTree.mk child (resolveURL baseURL link.href) [] []))
                            (cfg.pollDepth + 1 - (depth + 1)) := hlev
                        _ ≤ cfg.pollDepth - depth := by
                            rw [levelsBelow_mk, levelsBelowList]
                            omega
                  · rw [if_pos hnavf, if_neg hdep] at hCTdef
                    subst hCTdef
                    refine ⟨rfl, by rw [subOK_mk, subOKList], ?_⟩
                    rw [levelsBelow_mk, levelsBelowList]
                    omega
                · rw [if_neg hnavf] at hCTdef
                  subst hCTdef
                  refine ⟨rfl, by rw [subOK_mk, subOKList], ?_⟩
                  rw [levelsBelow_mk, levelsBelowList]
                  omega
              obtain ⟨hc1, hc2, hc3⟩ := hCT _ rfl
              have hrest := ih (insertChild tree
                (relativePath cfg.url (resolveURL baseURL link.href))
                (if isNavigationFeed child then
                  if depth < cfg.pollDepth then
                    crawlChildren fetch cfg (.mk child (resolveURL baseURL link.href) [] [])
                      (resolveURL baseURL link.href) (depth + 1)
                  else .mk child (resolveURL baseURL link.href) [] []
                 else .mk child (resolveURL baseURL link.href) [] [])) baseURL hd
              obtain ⟨hr1, hr2, hr3, hr4, hr5⟩ := hrest
              refine ⟨by rw [hr1]; rfl, by rw [hr2]; rfl, by rw [hr3]; rfl, ?_, ?_⟩
              · have hins := levelsBelow_insertChild tree
                  (relativePath cfg.url (resolveURL baseURL link.href))
                  (if isNavigationFeed child then
                    if depth < cfg.pollDepth then
                      crawlChildren fetch cfg (.mk child (resolveURL baseURL link.href) [] [])
                        (resolveURL baseURL link.href) (depth + 1)
                    else .mk child (resolveURL baseURL link.href) [] []
                   else .mk child (resolveURL baseURL link.href) [] [])
                rw [hins] at hr4
                omega
              · intro hsubtree
                apply hr5
                rw [subOK_insertChild, hsubtree, hc2]
                rw [hc1]
                rfl
    constructor
    · intro tree baseURL
      by_cases hdep : depth > cfg.pollDepth
      · rw [crawlChildren_eq, if_pos hdep]
        exact ⟨rfl, rfl, rfl, le_max_left _ _, fun h => h⟩
      · rw [crawlChildren_eq, if_neg hdep]
        exact loopPart (tree.feed.entries.flatMap Entry.links) tree baseURL (by omega)
    · intro links tree baseURL hd
      exact loopPart links tree baseURL hd

/-- C4: the crawl depth bound — any tree returned by `crawl` under a
    configuration with poll depth N has no node more than N levels below
    the root; with N = 0 the tree holds only the root document (no
    children at all); and every node strictly below the root that was
    recursed into (has children) is itself classified as a navigation
    document. -/
theorem C4_depth_bound (fetch : Str → Option Feed) (cfg : FeedConfig) (t : FeedTree)
    (h : crawl fetch cfg = some t) :
    levelsBelow t ≤ cfg.pollDepth ∧ (cfg.pollDepth = 0 → t.children = []) ∧ subOK t = true := by
  rw [crawl] at h
  cases hf : fetch cfg.url with
  | none =>
    rw [hf] at h
    cases h
  | some feed =>
    rw [hf] at h
    dsimp only at h
    by_cases hp : cfg.pollDepth > 0
    · rw [if_pos hp, Option.some.injEq] at h
      subst h
      refine ⟨?_, by omega, ?_⟩
      · refine le_trans
          (((crawl_invariant fetch cfg cfg.pollDepth 1 (by omega)).1 _ cfg.url).2.2.2.1) ?_
        rw [levelsBelow_mk, levelsBelowList]
        omega
      · exact ((crawl_invariant fetch cfg cfg.pollDepth 1 (by omega)).1 _ cfg.url).2.2.2.2
          (by rw [subOK_mk, subOKList])
    · rw [if_neg hp, Option.some.injEq] at h
      subst h
      refine ⟨?_, fun _ => rfl, by rw [subOK_mk, subOKList]⟩
      rw [levelsBelow_mk, levelsBelowList]
      omega

theorem crawlLoop_mono (fetch : Str → Option Feed) (cfg : FeedConfig)
    (baseURL : Str) (depth : Nat) :
    ∀ (links : List Link) (tree : FeedTree) (k : Str), lookupChild tree k ≠ none →
      lookupChild (crawlLoop fetch cfg links tree baseURL depth) k ≠ none := by
  intro links
  induction links with
  | nil =>
    intro tree k h
    rw [crawlLoop_nil]
    exact h
  | cons link rest ih =>
    intro tree k h
    rw [crawlLoop_cons]
    by_cases hnav : isNavigationLink link = false
    · rw [if_pos hnav]
      exact ih tree k h
    · rw [if_neg hnav]
      cases hlk : lookupChild tree (relativePath cfg.url (resolveURL baseURL link.href)) with
      | some c =>
        dsimp only
        exact ih tree k h
      | none =>
        dsimp only
        cases hf : fetch (resolveURL baseURL link.href) with
        | none =>
          dsimp only
          exact ih tree k h
        | some child =>
          dsimp only
          exact ih _ k (lookupChild_insertChild_mono _ _ _ _ h)

theorem crawlLoop_covers (fetch : Str → Option Feed) (cfg : FeedConfig)
    (baseURL : Str) (depth : Nat) :
    ∀ (links : List Link) (tree : FeedTree) (l : Link), l ∈ links →
      isNavigationLink l = true → fetch (resolveURL baseURL l.href) ≠ none →
      lookupChild (crawlLoop fetch cfg links tree baseURL depth)
        (relativePath cfg.url (resolveURL baseURL l.href)) ≠ none := by
  intro links
  induction links with
  | nil =>
    intro tree l hl
    cases hl
  | cons link rest ih =>
    intro tree l hl hnavl hfl
    rw [crawlLoop_cons]
    rcases List.mem_cons.mp hl with hl | hl
    · subst hl
      rw [if_neg (by rw [hnavl]; simp)]
      cases hlk : lookupChild tree (relativePath cfg.url (resolveURL baseURL l.href)) with
      | some c =>
        dsimp only
        exact crawlLoop_mono fetch cfg baseURL depth rest tree _ (by rw [hlk]; simp)
      | none =>
        dsimp only
        cases hf : fetch (resolveURL baseURL l.href) with
        | none => exact absurd hf hfl
        | some child =>
          dsimp only
          exact crawlLoop_mono fetch cfg baseURL depth rest _ _
            (lookupChild_insertChild_self _ _ _)
    · by_cases hnav : isNavigationLink link = false
      · rw [if_pos hnav]
        exact ih tree l hl hnavl hfl
      · rw [if_neg hnav]
        cases hlk : lookupChild tree (relativePath cfg.url (resolveURL baseURL link.href)) with
        | some c =>
          dsimp only
          exact ih tree l hl hnavl hfl
        | none =>
          dsimp only
          cases hf : fetch (resolveURL baseURL link.href) with
          | none =>
            dsimp only
            exact ih tree l hl hnavl hfl
          | some child =>
            dsimp only
            exact ih _ l hl hnavl hfl

/-- C6: partial-failure tolerance — whenever the root fetch succeeds the
    crawl itself succeeds, and every navigation link of the root document
    whose own fetch succeeds gets its child inserted under its relative
    path, regardless of other links whose fetches fail: a failed
    sub-catalog fetch skips only that branch. -/
theorem C6_partial_failure (fetch : Str → Option Feed) (cfg : FeedConfig) (feed : Feed)
    (hroot : fetch cfg.url = some feed) (hd : 1 ≤ cfg.pollDepth) :
    ∃ t, crawl fetch cfg = some t ∧
      ∀ l ∈ feed.entries.flatMap Entry.links, isNavigationLink l = true →
        fetch (resolveURL cfg.url l.href) ≠ none →
        lookupChild t (relativePath cfg.url (resolveURL cfg.url l.href)) ≠ none := by
  rw [crawl, hroot]
  dsimp only
  rw [if_pos (by omega : cfg.pollDepth > 0)]
  refine ⟨_, rfl, ?_⟩
  intro l hl hnav hfl
  rw [crawlChildren_eq, if_neg (by omega)]
  exact crawlLoop_covers fetch cfg cfg.url 1 _ _ l hl hnav hfl

/-- C4 witness: crawling `fetchC4` at poll depth 0 returns the bare root
    tree — zero levels below the root, no children, and trivially
    navigation-gated. -/
theorem C4_witness :
    levelsBelow (FeedTree.mk rootFeedC4 (str "http://h/c") [] []) ≤ 0 ∧
    ((0:Nat) = 0 → (FeedTree.mk rootFeedC4 (str "http://h/c") [] []).children = []) ∧
    subOK (FeedTree.mk rootFeedC4 (str "http://h/c") [] []) = true :=
  C4_depth_bound fetchC4 ⟨str "http://h/c", 0⟩ (FeedTree.mk rootFeedC4 (str "http://h/c") [] [])
    rfl

/-- C6 witness: with the middle of three sub-catalog fetches failing, the
    crawl of `fetchC6` still succeeds and every navigation link whose
    fetch succeeds (here `/c/a` and `/c/b`) has its child present in the
    returned tree. -/
theorem C6_witness :
    ∃ t, crawl fetchC6 ⟨str "http://h/c", 1⟩ = some t ∧
      ∀ l ∈ rootFeedC6.entries.flatMap Entry.links, isNavigationLink l = true →
        fetchC6 (resolveURL (str "http://h/c") l.href) ≠ none →
        lookupChild t (relativePath (str "http://h/c") (resolveURL (str "http://h/c") l.href)) ≠
          none :=
  C6_partial_failure fetchC6 ⟨str "http://h/c", 1⟩ rootFeedC6 rfl (by decide)
